import Mathlib

/-!
Verification of the five randomized-optimization drivers of algorithms.py
(hill_climb, random_hill_climb, simulated_annealing, genetic_alg, mimic)
against their natural-language specification.

Modelling conventions.
* Fitness scalars are rationals (ℚ).  The float sentinel -inf used to seed
  the best-fitness tracker of hill_climb / random_hill_climb is modelled by
  the three-valued type FVal (negInf, fin q, posInf), with multiplication by
  the nonzero orientation integer get_maximize() given by mulSign.
* The Problem object is the structure Problem: a pure fitness function
  (eval_fitness, in the internal always-maximize orientation; set_state
  updates the cached fitness, so get_fitness of the current state s is
  fitness s), the orientation integer maximize (get_maximize), and the
  neighbor enumeration neighbors (find_neighbors).
* Randomness is threaded as explicit oracle streams: the initial state of
  each restart (init), the random neighbor drawn at the n-th draw
  (nbr n s), the outcome of the uniform-draw acceptance test of simulated
  annealing at iteration t with a given (delta, temperature) pair
  (accTest t delta temp), the parent indices chosen by np.random.choice
  (sel), the child produced by problem.reproduce from two parents
  (reproduce), and the population resampled by mimic at generation g
  (sample g n).  Universally quantifying over an oracle covers every
  realization of the random source.
* Every while-loop is given a fuel parameter; a loop run that does not
  finish within its fuel returns none.  Termination of a run means: some
  fuel makes the loop return some result.
* Each loop also accumulates the traces the specification talks about:
  the committed states of a restart, the value of the attempts counter
  after each iteration, the (delta, temperature) pairs at which the
  Boltzmann expression is computed and at which its value is consulted,
  and the population length after each generation.
-/

namespace Mlrose

/-- Extended fitness value: models the IEEE float values -inf and +inf next
to finite rationals.  hill_climb and random_hill_climb seed their
best-fitness tracker with -1*np.inf (algorithms.py lines 26, 71). -/
inductive FVal where
  | negInf : FVal
  | fin : ℚ → FVal
  | posInf : FVal
deriving DecidableEq, Repr

/-- Strict order on extended fitness values, as a boolean test mirroring the
float comparison next_fitness > best_fitness of the source. -/
def FVal.lt : FVal → FVal → Bool
  | FVal.negInf, FVal.negInf => false
  | FVal.negInf, _ => true
  | FVal.fin _, FVal.negInf => false
  | FVal.fin a, FVal.fin b => decide (a < b)
  | FVal.fin _, FVal.posInf => true
  | FVal.posInf, _ => false

/-- Non-strict order on extended fitness values. -/
def FVal.le (a b : FVal) : Bool := !(FVal.lt b a)

/-- Negation of an extended fitness value (IEEE negation of ±inf). -/
def FVal.neg : FVal → FVal
  | FVal.negInf => FVal.posInf
  | FVal.fin q => FVal.fin (-q)
  | FVal.posInf => FVal.negInf

/-- Multiplication of an extended fitness value by the orientation integer
returned by get_maximize().  The contract restricts that integer to +1 or
-1, so the zero case never arises in a run. -/
def mulSign (m : ℤ) : FVal → FVal
  | FVal.negInf => if 0 ≤ m then FVal.negInf else FVal.posInf
  | FVal.fin q => FVal.fin ((m : ℚ) * q)
  | FVal.posInf => if 0 ≤ m then FVal.posInf else FVal.negInf

/-- Abstract Problem capability set used by the drivers.  fitness is
eval_fitness (pure, internal always-maximize orientation); maximize is
get_maximize(); neighbors is the neighbor set computed by find_neighbors,
as a list in the problem's enumeration order. -/
structure Problem (σ : Type) where
  fitness : σ → ℚ
  maximize : ℤ
  neighbors : σ → List σ

/-- Modelled from the spec: first-index argmax of the fitness function over
a list of states.  This realises the external best_neighbor / best_child
contract (return the single best-fitness element; np.argmax keeps the first
index on ties, matched here by replacing the accumulator only on a strictly
greater fitness).  Returns none exactly on the empty list. -/
def argmaxF {σ : Type} (p : Problem σ) : List σ → Option σ
  | [] => none
  | x :: xs => some (xs.foldl (fun b y => if p.fitness b < p.fitness y then y else b) x)

/-- Modelled from the spec: best_neighbor() of the Problem contract, the
best-fitness element of the cached neighbor set.  An empty neighbor set is
a contract violation (spec section 7); the model returns the current state
in that unreachable case. -/
def bestNeighbor {σ : Type} (p : Problem σ) (s : σ) : σ :=
  (argmaxF p (p.neighbors s)).getD s

/-- Modelled from the spec: best_child() of the Problem contract, the
best-fitness individual of the current population (none on an empty
population, which is a contract violation). -/
def bestChild {σ : Type} (p : Problem σ) (pop : List σ) : Option σ :=
  argmaxF p pop

/-- Result of one restart of the hill_climb inner loop: the final committed
state and the list of states committed by set_state, in order. -/
structure HCRun (σ : Type) where
  final : σ
  commits : List σ
deriving DecidableEq, Repr

/-- Inner while-loop of hill_climb (algorithms.py lines 33-44): move to the
best neighbor while it strictly improves the current fitness, otherwise
break.  fuel bounds the number of iterations; tr accumulates the committed
states. -/
def hillClimbInner {σ : Type} (p : Problem σ) : ℕ → σ → List σ → Option (HCRun σ)
  | 0, _, _ => none
  | fuel + 1, s, tr =>
    let ns := bestNeighbor p s
    if p.fitness s < p.fitness ns then
      hillClimbInner p fuel ns (tr ++ [ns])
    else
      some ⟨s, tr⟩

/-- Restart loop of hill_climb (algorithms.py lines 29-49): run the inner
loop from init i for each restart, keep the best (state, fitness) pair seen
across restarts, and record every restart's run.  Seeded with
(none, -inf, []) by hill_climb. -/
def hillClimbMain {σ : Type} (p : Problem σ) (init : ℕ → σ) (fuel : ℕ) :
    ℕ → ℕ → Option σ → FVal → List (HCRun σ) → Option (Option σ × FVal × List (HCRun σ))
  | _, 0, bs, bf, runs => some (bs, bf, runs)
  | i, rl + 1, bs, bf, runs =>
    match hillClimbInner p fuel (init i) [] with
    | none => none
    | some run =>
      if FVal.lt bf (FVal.fin (p.fitness run.final)) then
        hillClimbMain p init fuel (i + 1) rl (some run.final)
          (FVal.fin (p.fitness run.final)) (runs ++ [run])
      else
        hillClimbMain p init fuel (i + 1) rl bs bf (runs ++ [run])

/-- Driver hill_climb (algorithms.py lines 11-52).  init gives the random
state produced by problem.reset() at each restart.  The orientation
multiplication of line 51 is applied exactly once, here, to the tracked
best fitness. -/
def hill_climb {σ : Type} (p : Problem σ) (init : ℕ → σ) (restarts fuel : ℕ) :
    Option (Option σ × FVal) :=
  match hillClimbMain p init fuel 0 restarts none FVal.negInf [] with
  | none => none
  | some (bs, bf, _) => some (bs, mulSign p.maximize bf)

/-- Result of one restart of the random_hill_climb inner loop: the next
unused random-draw index, the final committed state, the committed states
in order, and the value of the attempts counter after each iteration. -/
structure RHCRun (σ : Type) where
  n : ℕ
  final : σ
  commits : List σ
  attTrace : List ℕ
deriving DecidableEq, Repr

/-- Inner while-loop of random_hill_climb (algorithms.py lines 79-91): while
attempts < max_attempts, draw the random neighbor nbr n s, commit it and
reset attempts on strict improvement, otherwise increment attempts. -/
def rhcInner {σ : Type} (p : Problem σ) (nbr : ℕ → σ → σ) (maxAttempts : ℕ) :
    ℕ → ℕ → ℕ → σ → List σ → List ℕ → Option (RHCRun σ)
  | 0, n, attempts, s, tr, att =>
    if attempts < maxAttempts then none else some ⟨n, s, tr, att⟩
  | fuel + 1, n, attempts, s, tr, att =>
    if attempts < maxAttempts then
      let ns := nbr n s
      if p.fitness s < p.fitness ns then
        rhcInner p nbr maxAttempts fuel (n + 1) 0 ns (tr ++ [ns]) (att ++ [0])
      else
        rhcInner p nbr maxAttempts fuel (n + 1) (attempts + 1) s tr (att ++ [attempts + 1])
    else
      some ⟨n, s, tr, att⟩

/-- Restart loop of random_hill_climb (algorithms.py lines 74-96): per
restart, reset the problem to init i and the attempts counter to 0, run the
inner loop, and keep the best (state, fitness) pair across restarts.  The
random-draw index n is threaded through the whole call. -/
def rhcMain {σ : Type} (p : Problem σ) (init : ℕ → σ) (nbr : ℕ → σ → σ)
    (maxAttempts fuel : ℕ) :
    ℕ → ℕ → ℕ → Option σ → FVal → List (RHCRun σ) →
    Option (Option σ × FVal × List (RHCRun σ))
  | _, 0, _, bs, bf, runs => some (bs, bf, runs)
  | i, rl + 1, n, bs, bf, runs =>
    match rhcInner p nbr maxAttempts fuel n 0 (init i) [] [] with
    | none => none
    | some run =>
      if FVal.lt bf (FVal.fin (p.fitness run.final)) then
        rhcMain p init nbr maxAttempts fuel (i + 1) rl run.n (some run.final)
          (FVal.fin (p.fitness run.final)) (runs ++ [run])
      else
        rhcMain p init nbr maxAttempts fuel (i + 1) rl run.n bs bf (runs ++ [run])

/-- Driver random_hill_climb (algorithms.py lines 55-99).  The orientation
multiplication of line 98 is applied exactly once, here. -/
def random_hill_climb {σ : Type} (p : Problem σ) (init : ℕ → σ) (nbr : ℕ → σ → σ)
    (maxAttempts restarts fuel : ℕ) : Option (Option σ × FVal) :=
  match rhcMain p init nbr maxAttempts fuel 0 restarts 0 none FVal.negInf [] with
  | none => none
  | some (bs, bf, _) => some (bs, mulSign p.maximize bf)

/-- Result of a simulated_annealing run: the final committed state, the
final value of the time counter _t, the (delta_e, temp) pairs at which the
expression np.exp(delta_e/temp) of line 140 is computed (one per
nonzero-temperature iteration, in order), the (delta_e, temp) pairs at
which the value of that expression is consulted by the acceptance test
(the right operand of the or of line 145, reached only when delta_e ≤ 0),
and the value of the attempts counter after each iteration. -/
structure SARun (σ : Type) where
  final : σ
  t : ℕ
  evals : List (ℚ × ℚ)
  uses : List (ℚ × ℚ)
  attTrace : List ℕ
deriving DecidableEq, Repr

/-- Main while-loop of simulated_annealing (algorithms.py lines 127-153):
while attempts < max_attempts, evaluate the schedule at _t; break if the
temperature is exactly 0 (before drawing a neighbor, computing delta_e, or
dividing by the temperature); otherwise draw a neighbor, compute delta_e
and the Boltzmann expression, accept on delta_e > 0 or on a positive
uniform-test outcome (accTest, consulted only when delta_e ≤ 0 because the
or short-circuits), and increment _t. -/
def saLoop {σ : Type} (p : Problem σ) (sched : ℕ → ℚ) (nbr : ℕ → σ → σ)
    (accTest : ℕ → ℚ → ℚ → Bool) (maxAttempts : ℕ) :
    ℕ → ℕ → ℕ → σ → List (ℚ × ℚ) → List (ℚ × ℚ) → List ℕ → Option (SARun σ)
  | 0, t, attempts, s, evals, uses, att =>
    if attempts < maxAttempts then none else some ⟨s, t, evals, uses, att⟩
  | fuel + 1, t, attempts, s, evals, uses, att =>
    if attempts < maxAttempts then
      let temp := sched t
      if temp = 0 then
        some ⟨s, t, evals, uses, att⟩
      else
        let ns := nbr t s
        let delta := p.fitness ns - p.fitness s
        let evals' := evals ++ [(delta, temp)]
        if 0 < delta then
          saLoop p sched nbr accTest maxAttempts fuel (t + 1) 0 ns evals' uses (att ++ [0])
        else
          if accTest t delta temp then
            saLoop p sched nbr accTest maxAttempts fuel (t + 1) 0 ns evals'
              (uses ++ [(delta, temp)]) (att ++ [0])
          else
            saLoop p sched nbr accTest maxAttempts fuel (t + 1) (attempts + 1) s evals'
              (uses ++ [(delta, temp)]) (att ++ [attempts + 1])
    else
      some ⟨s, t, evals, uses, att⟩

/-- Driver simulated_annealing (algorithms.py lines 102-158).  s0 is the
random state produced by problem.reset(); the orientation multiplication of
line 155 is applied exactly once, here, to the fitness of the final
committed state. -/
def simulated_annealing {σ : Type} (p : Problem σ) (s0 : σ) (sched : ℕ → ℚ)
    (nbr : ℕ → σ → σ) (accTest : ℕ → ℚ → ℚ → Bool) (maxAttempts fuel : ℕ) :
    Option (σ × ℚ) :=
  match saLoop p sched nbr accTest maxAttempts fuel 0 0 s0 [] [] [] with
  | none => none
  | some r => some (r.final, (p.maximize : ℚ) * p.fitness r.final)

/-- Result of a genetic_alg or mimic run: the final committed state, the
length of the population after each generation's set_population, and the
value of the attempts counter after each generation. -/
structure PopRun (σ : Type) where
  final : σ
  popLens : List ℕ
  attTrace : List ℕ
deriving DecidableEq, Repr

/-- Child-construction loop of genetic_alg (algorithms.py lines 189-202):
build count children, each by selecting two parent indices with the
selection oracle sel (modelling np.random.choice over the mate-probability
distribution), indexing the current population, and applying the reproduce
oracle (problem.reproduce with the random crossover/mutation draws of draw
index d).  Returns the children list and the next unused draw index; an
out-of-range parent index (impossible for np.random.choice(pop_size, ...)
over a population of length pop_size) fails the run. -/
def buildNextGen {σ : Type} (reproduce : ℕ → σ → σ → ℚ → σ) (sel : ℕ → ℕ × ℕ)
    (mutationProb : ℚ) (pop : List σ) : ℕ → ℕ → List σ → Option (List σ × ℕ)
  | 0, d, acc => some (acc, d)
  | count + 1, d, acc =>
    match pop[(sel d).1]?, pop[(sel d).2]? with
    | some p1, some p2 =>
      buildNextGen reproduce sel mutationProb pop count (d + 1)
        (acc ++ [reproduce d p1 p2 mutationProb])
    | _, _ => none

/-- Main while-loop of genetic_alg (algorithms.py lines 184-215): while
attempts < max_attempts, compute mate probabilities (their effect on the
run is captured by the selection oracle), build pop_size children, replace
the population wholesale, take the best child as candidate, commit it and
reset attempts on strict improvement, otherwise increment attempts. -/
def gaLoop {σ : Type} (p : Problem σ) (reproduce : ℕ → σ → σ → ℚ → σ)
    (sel : ℕ → ℕ × ℕ) (mutationProb : ℚ) (popSize maxAttempts : ℕ) :
    ℕ → ℕ → ℕ → σ → List σ → List ℕ → List ℕ → Option (PopRun σ)
  | 0, _, attempts, s, _, pl, att =>
    if attempts < maxAttempts then none else some ⟨s, pl, att⟩
  | fuel + 1, d, attempts, s, pop, pl, att =>
    if attempts < maxAttempts then
      match buildNextGen reproduce sel mutationProb pop popSize d [] with
      | none => none
      | some (nextGen, d') =>
        match bestChild p nextGen with
        | none => none
        | some ns =>
          if p.fitness s < p.fitness ns then
            gaLoop p reproduce sel mutationProb popSize maxAttempts fuel d' 0 ns nextGen
              (pl ++ [nextGen.length]) (att ++ [0])
          else
            gaLoop p reproduce sel mutationProb popSize maxAttempts fuel d' (attempts + 1) s
              nextGen (pl ++ [nextGen.length]) (att ++ [attempts + 1])
    else
      some ⟨s, pl, att⟩

/-- Driver genetic_alg (algorithms.py lines 161-220).  s0 is the state left
by problem.reset(), pop0 the population produced by random_pop(pop_size).
The orientation multiplication of line 217 is applied exactly once, here. -/
def genetic_alg {σ : Type} (p : Problem σ) (s0 : σ) (pop0 : List σ)
    (reproduce : ℕ → σ → σ → ℚ → σ) (sel : ℕ → ℕ × ℕ) (mutationProb : ℚ)
    (popSize maxAttempts fuel : ℕ) : Option (σ × ℚ) :=
  match gaLoop p reproduce sel mutationProb popSize maxAttempts fuel 0 0 s0 pop0 [] [] with
  | none => none
  | some r => some (r.final, (p.maximize : ℚ) * p.fitness r.final)

/-- Main while-loop of mimic (algorithms.py lines 245-266): while
attempts < max_attempts, restrict to the top keep_pct fraction
(find_top_pct) and refit the probability model (eval_node_probs) — both
mutate only the Problem's internal model, so their effect on the run is
captured by the sampling oracle's dependence on the generation index —
then resample a population of size pop_size, replace the population
wholesale, take the best child, commit and reset attempts on strict
improvement, otherwise increment attempts. -/
def mimicLoop {σ : Type} (p : Problem σ) (sample : ℕ → ℕ → List σ)
    (popSize maxAttempts : ℕ) :
    ℕ → ℕ → ℕ → σ → List σ → List ℕ → List ℕ → Option (PopRun σ)
  | 0, _, attempts, s, _, pl, att =>
    if attempts < maxAttempts then none else some ⟨s, pl, att⟩
  | fuel + 1, g, attempts, s, _pop, pl, att =>
    if attempts < maxAttempts then
      let newSample := sample g popSize
      match bestChild p newSample with
      | none => none
      | some ns =>
        if p.fitness s < p.fitness ns then
          mimicLoop p sample popSize maxAttempts fuel (g + 1) 0 ns newSample
            (pl ++ [newSample.length]) (att ++ [0])
        else
          mimicLoop p sample popSize maxAttempts fuel (g + 1) (attempts + 1) s newSample
            (pl ++ [newSample.length]) (att ++ [attempts + 1])
    else
      some ⟨s, pl, att⟩

/-- Driver mimic (algorithms.py lines 223-271).  s0 is the state left by
problem.reset(), pop0 the population produced by random_pop(pop_size), and
sample g pop_size the population resampled at generation g (sample_pop,
whose distribution reflects the find_top_pct/eval_node_probs refits).  The
orientation multiplication of line 268 is applied exactly once, here; the
astype(int) cast of line 269 is a representation cast on the opaque state
and is not modelled. -/
def mimic {σ : Type} (p : Problem σ) (s0 : σ) (pop0 : List σ)
    (sample : ℕ → ℕ → List σ) (popSize maxAttempts fuel : ℕ) : Option (σ × ℚ) :=
  match mimicLoop p sample popSize maxAttempts fuel 0 0 s0 pop0 [] [] with
  | none => none
  | some r => some (r.final, (p.maximize : ℚ) * p.fitness r.final)

/-! Helper lemmas about the extended fitness order. -/

theorem fval_le_refl (a : FVal) : FVal.le a a = true := by
  cases a <;> simp [FVal.le, FVal.lt]

theorem fval_lt_asymm {a b : FVal} (h : FVal.lt a b = true) : FVal.lt b a = false := by
  cases a <;> cases b <;> simp_all [FVal.lt]
  linarith

theorem fval_le_of_lt {a b : FVal} (h : FVal.lt a b = true) : FVal.le a b = true := by
  simp [FVal.le, fval_lt_asymm h]

theorem fval_le_of_not_lt {a b : FVal} (h : FVal.lt a b = false) : FVal.le b a = true := by
  simp [FVal.le, h]

theorem fval_le_trans {a b c : FVal} (hab : FVal.le a b = true) (hbc : FVal.le b c = true) :
    FVal.le a c = true := by
  cases a <;> cases b <;> cases c <;> simp_all [FVal.le, FVal.lt]
  all_goals linarith

theorem fval_fin_le_negInf {q : ℚ} (h : FVal.le (FVal.fin q) FVal.negInf = true) : False := by
  simp [FVal.le, FVal.lt] at h

/-! Helper lemmas about the first-index argmax. -/

theorem argmaxF_foldl_spec {σ : Type} (p : Problem σ) (xs : List σ) (x : σ) :
    (xs.foldl (fun b y => if p.fitness b < p.fitness y then y else b) x = x ∨
      xs.foldl (fun b y => if p.fitness b < p.fitness y then y else b) x ∈ xs) ∧
    p.fitness x ≤ p.fitness (xs.foldl (fun b y => if p.fitness b < p.fitness y then y else b) x) ∧
    ∀ y ∈ xs,
      p.fitness y ≤ p.fitness (xs.foldl (fun b y => if p.fitness b < p.fitness y then y else b) x) := by
  induction xs generalizing x with
  | nil => simp
  | cons z zs ih =>
    simp only [List.foldl_cons]
    rcases le_or_lt (p.fitness z) (p.fitness x) with hzx | hzx
    · have hif : (if p.fitness x < p.fitness z then z else x) = x := by
        rw [if_neg (not_lt.mpr hzx)]
      rw [hif]
      refine ⟨?_, (ih x).2.1, ?_⟩
      · rcases (ih x).1 with h | h
        · exact Or.inl h
        · exact Or.inr (List.mem_cons_of_mem z h)
      · intro y hy
        rcases List.mem_cons.mp hy with rfl | hy
        · exact le_trans hzx (ih x).2.1
        · exact (ih x).2.2 y hy
    · have hif : (if p.fitness x < p.fitness z then z else x) = z := by
        rw [if_pos hzx]
      rw [hif]
      refine ⟨?_, le_trans (le_of_lt hzx) (ih z).2.1, ?_⟩
      · rcases (ih z).1 with h | h
        · exact Or.inr (by rw [h]; exact List.mem_cons_self z zs)
        · exact Or.inr (List.mem_cons_of_mem z h)
      · intro y hy
        rcases List.mem_cons.mp hy with hz | hy
        · rw [hz]; exact (ih z).2.1
        · exact (ih z).2.2 y hy

theorem argmaxF_mem {σ : Type} (p : Problem σ) {l : List σ} {b : σ}
    (h : argmaxF p l = some b) : b ∈ l := by
  cases l with
  | nil => simp [argmaxF] at h
  | cons x xs =>
    simp only [argmaxF, Option.some.injEq] at h
    rcases (argmaxF_foldl_spec p xs x).1 with h1 | h1
    · rw [← h, h1]; exact List.mem_cons_self x xs
    · rw [← h]; exact List.mem_cons_of_mem x h1

theorem argmaxF_ge {σ : Type} (p : Problem σ) {l : List σ} {b : σ}
    (h : argmaxF p l = some b) : ∀ y ∈ l, p.fitness y ≤ p.fitness b := by
  cases l with
  | nil => simp [argmaxF] at h
  | cons x xs =>
    simp only [argmaxF, Option.some.injEq] at h
    intro y hy
    rcases List.mem_cons.mp hy with rfl | hy
    · rw [← h]; exact (argmaxF_foldl_spec p xs y).2.1
    · rw [← h]; exact (argmaxF_foldl_spec p xs x).2.2 y hy

theorem bestNeighbor_ge {σ : Type} (p : Problem σ) (s : σ) :
    ∀ y ∈ p.neighbors s, p.fitness y ≤ p.fitness (bestNeighbor p s) := by
  intro y hy
  unfold bestNeighbor
  cases hl : p.neighbors s with
  | nil => rw [hl] at hy; simp at hy
  | cons x xs =>
    rw [hl] at hy
    have : argmaxF p (x :: xs) = some (xs.foldl (fun b y => if p.fitness b < p.fitness y then y else b) x) := rfl
    rw [this]
    exact argmaxF_ge p this y hy

theorem bestNeighbor_mem_or_self {σ : Type} (p : Problem σ) (s : σ) :
    bestNeighbor p s ∈ p.neighbors s ∨ bestNeighbor p s = s := by
  unfold bestNeighbor
  cases hl : p.neighbors s with
  | nil => simp [argmaxF]
  | cons x xs =>
    left
    have h : argmaxF p (x :: xs) =
        some (xs.foldl (fun b y => if p.fitness b < p.fitness y then y else b) x) := rfl
    rw [h, Option.getD_some, ← hl]
    have := argmaxF_mem p h
    rw [hl]
    exact this

/-! Lemmas about the hill_climb inner loop. -/

theorem hillClimbInner_localopt {σ : Type} (p : Problem σ) :
    ∀ fuel s tr r, hillClimbInner p fuel s tr = some r →
      ∀ x ∈ p.neighbors r.final, ¬ p.fitness r.final < p.fitness x := by
  intro fuel
  induction fuel with
  | zero => intro s tr r h; simp [hillClimbInner] at h
  | succ f ih =>
    intro s tr r h
    rw [hillClimbInner] at h
    by_cases himp : p.fitness s < p.fitness (bestNeighbor p s)
    · rw [if_pos himp] at h
      exact ih _ _ _ h
    · rw [if_neg himp] at h
      have hr : r = ⟨s, tr⟩ := by
        injection h with h'; exact h'.symm
      subst hr
      intro x hx hlt
      exact himp (lt_of_lt_of_le hlt (bestNeighbor_ge p s x hx))

theorem hillClimbInner_stop_of_localopt {σ : Type} (p : Problem σ) (s : σ)
    (h : ∀ x ∈ p.neighbors s, ¬ p.fitness s < p.fitness x) (fuel : ℕ) (tr : List σ) :
    hillClimbInner p (fuel + 1) s tr = some ⟨s, tr⟩ := by
  rw [hillClimbInner]
  have hnot : ¬ p.fitness s < p.fitness (bestNeighbor p s) := by
    rcases bestNeighbor_mem_or_self p s with hm | he
    · exact h _ hm
    · rw [he]; exact lt_irrefl _
  rw [if_neg hnot]

theorem hillClimbInner_commits {σ : Type} (p : Problem σ) :
    ∀ fuel s tr r, hillClimbInner p fuel s tr = some r →
      ∃ ext, r.commits = tr ++ ext ∧
        List.Chain' (fun a b => p.fitness a ≤ p.fitness b) (s :: ext) ∧
        p.fitness s ≤ p.fitness r.final := by
  intro fuel
  induction fuel with
  | zero => intro s tr r h; simp [hillClimbInner] at h
  | succ f ih =>
    intro s tr r h
    rw [hillClimbInner] at h
    by_cases himp : p.fitness s < p.fitness (bestNeighbor p s)
    · rw [if_pos himp] at h
      obtain ⟨ext, hcom, hchain, hfit⟩ := ih _ _ _ h
      refine ⟨bestNeighbor p s :: ext, ?_, ?_, le_trans (le_of_lt himp) hfit⟩
      · rw [hcom, List.append_assoc]; rfl
      · exact List.Chain'.cons (le_of_lt himp) hchain
    · rw [if_neg himp] at h
      have hr : r = ⟨s, tr⟩ := by
        injection h with h'; exact h'.symm
      subst hr
      exact ⟨[], by simp, List.chain'_singleton s, le_refl _⟩

/-- Number of states whose fitness strictly exceeds that of s; the
termination measure of the improvement loops over a finite state space. -/
def improveCard {σ : Type} [Fintype σ] (p : Problem σ) (s : σ) : ℕ :=
  (Finset.univ.filter (fun x => p.fitness s < p.fitness x)).card

theorem improveCard_lt {σ : Type} [Fintype σ] (p : Problem σ) {s ns : σ}
    (h : p.fitness s < p.fitness ns) : improveCard p ns < improveCard p s := by
  apply Finset.card_lt_card
  rw [Finset.ssubset_iff_of_subset]
  · refine ⟨ns, ?_, ?_⟩
    · simp only [Finset.mem_filter, Finset.mem_univ, true_and]; exact h
    · simp only [Finset.mem_filter, Finset.mem_univ, true_and]; exact lt_irrefl _
  · intro x hx
    simp only [Finset.mem_filter, Finset.mem_univ, true_and] at hx ⊢
    exact lt_trans h hx

theorem improveCard_le_card {σ : Type} [Fintype σ] (p : Problem σ) (s : σ) :
    improveCard p s ≤ Fintype.card σ := by
  classical
  exact le_trans (Finset.card_filter_le _ _) (le_of_eq (Finset.card_univ))

theorem hillClimbInner_term {σ : Type} [Fintype σ] (p : Problem σ) :
    ∀ fuel s tr, improveCard p s < fuel → ∃ r, hillClimbInner p fuel s tr = some r := by
  intro fuel
  induction fuel with
  | zero => intro s tr h; omega
  | succ f ih =>
    intro s tr h
    rw [hillClimbInner]
    by_cases himp : p.fitness s < p.fitness (bestNeighbor p s)
    · rw [if_pos himp]
      exact ih _ _ (by have := improveCard_lt p himp; omega)
    · rw [if_neg himp]
      exact ⟨⟨s, tr⟩, rfl⟩

/-! Lemmas about the hill_climb restart loop. -/

theorem hillClimbMain_spec {σ : Type} (p : Problem σ) (init : ℕ → σ) (fuel : ℕ) :
    ∀ rl i bs bf runs out, hillClimbMain p init fuel i rl bs bf runs = some out →
      (∃ ext, out.2.2 = runs ++ ext) ∧
      out.2.2.length = runs.length + rl ∧
      FVal.le bf out.2.1 = true ∧
      (∀ run ∈ out.2.2, run ∈ runs ∨
        FVal.le (FVal.fin (p.fitness run.final)) out.2.1 = true) ∧
      ((out.1 = bs ∧ out.2.1 = bf) ∨
        ∃ run ∈ out.2.2, out.1 = some run.final ∧
          out.2.1 = FVal.fin (p.fitness run.final)) := by
  intro rl
  induction rl with
  | zero =>
    intro i bs bf runs out h
    rw [hillClimbMain] at h
    injection h with h
    subst h
    exact ⟨⟨[], by simp⟩, by simp, fval_le_refl bf, fun run hr => Or.inl hr,
      Or.inl ⟨rfl, rfl⟩⟩
  | succ rl ih =>
    intro i bs bf runs out h
    rw [hillClimbMain] at h
    cases hinner : hillClimbInner p fuel (init i) [] with
    | none => rw [hinner] at h; simp at h
    | some run0 =>
      rw [hinner] at h
      simp only at h
      by_cases hlt : FVal.lt bf (FVal.fin (p.fitness run0.final)) = true
      · rw [if_pos hlt] at h
        obtain ⟨⟨ext, hpre⟩, hlen, hle, hall, hatt⟩ := ih _ _ _ _ _ h
        have hmem0 : run0 ∈ out.2.2 := by
          rw [hpre]
          exact List.mem_append.mpr (Or.inl (List.mem_append.mpr (Or.inr (List.mem_singleton.mpr rfl))))
        refine ⟨⟨run0 :: ext, by rw [hpre, List.append_assoc]; rfl⟩, ?_, ?_, ?_, ?_⟩
        · rw [hlen]; simp; omega
        · exact fval_le_trans (fval_le_of_lt hlt) hle
        · intro run hr
          rcases hall run hr with hin | hgood
          · rcases List.mem_append.mp hin with hin | hin
            · exact Or.inl hin
            · right
              rw [List.mem_singleton.mp hin]
              exact hle
          · exact Or.inr hgood
        · rcases hatt with ⟨h1, h2⟩ | ⟨run, hm, h1, h2⟩
          · exact Or.inr ⟨run0, hmem0, h1, h2⟩
          · exact Or.inr ⟨run, hm, h1, h2⟩
      · rw [if_neg (by simp_all)] at h
        obtain ⟨⟨ext, hpre⟩, hlen, hle, hall, hatt⟩ := ih _ _ _ _ _ h
        refine ⟨⟨run0 :: ext, by rw [hpre, List.append_assoc]; rfl⟩, ?_, hle, ?_, hatt⟩
        · rw [hlen]; simp; omega
        · intro run hr
          rcases hall run hr with hin | hgood
          · rcases List.mem_append.mp hin with hin | hin
            · exact Or.inl hin
            · right
              rw [List.mem_singleton.mp hin]
              have h0 : FVal.lt bf (FVal.fin (p.fitness run0.final)) = false :=
                Bool.not_eq_true _ ▸ hlt
              exact fval_le_trans (fval_le_of_not_lt h0) hle
          · exact Or.inr hgood

theorem hillClimbMain_runs_from_inner {σ : Type} (p : Problem σ) (init : ℕ → σ) (fuel : ℕ) :
    ∀ rl i bs bf runs out, hillClimbMain p init fuel i rl bs bf runs = some out →
      ∀ run ∈ out.2.2, run ∈ runs ∨
        ∃ j, hillClimbInner p fuel (init j) [] = some run := by
  intro rl
  induction rl with
  | zero =>
    intro i bs bf runs out h
    rw [hillClimbMain] at h
    injection h with h
    subst h
    exact fun run hr => Or.inl hr
  | succ rl ih =>
    intro i bs bf runs out h
    rw [hillClimbMain] at h
    cases hinner : hillClimbInner p fuel (init i) [] with
    | none => rw [hinner] at h; simp at h
    | some run0 =>
      rw [hinner] at h
      simp only at h
      by_cases hlt : FVal.lt bf (FVal.fin (p.fitness run0.final)) = true
      · rw [if_pos hlt] at h
        intro run hr
        rcases ih _ _ _ _ _ h run hr with hin | hgood
        · rcases List.mem_append.mp hin with hin | hin
          · exact Or.inl hin
          · exact Or.inr ⟨i, by rw [List.mem_singleton.mp hin]; exact hinner⟩
        · exact Or.inr hgood
      · rw [if_neg (by simp_all)] at h
        intro run hr
        rcases ih _ _ _ _ _ h run hr with hin | hgood
        · rcases List.mem_append.mp hin with hin | hin
          · exact Or.inl hin
          · exact Or.inr ⟨i, by rw [List.mem_singleton.mp hin]; exact hinner⟩
        · exact Or.inr hgood

theorem hillClimbMain_term {σ : Type} (p : Problem σ) (init : ℕ → σ) (fuel : ℕ)
    (hfuel : ∀ s tr, ∃ r, hillClimbInner p fuel s tr = some r) :
    ∀ rl i bs bf runs, ∃ out, hillClimbMain p init fuel i rl bs bf runs = some out := by
  intro rl
  induction rl with
  | zero => intro i bs bf runs; exact ⟨(bs, bf, runs), rfl⟩
  | succ rl ih =>
    intro i bs bf runs
    obtain ⟨run0, hrun0⟩ := hfuel (init i) []
    rw [hillClimbMain, hrun0]
    simp only
    by_cases hlt : FVal.lt bf (FVal.fin (p.fitness run0.final)) = true
    · rw [if_pos hlt]; exact ih _ _ _ _
    · rw [if_neg (by simp_all)]; exact ih _ _ _ _

/-! Lemmas about the random_hill_climb inner loop. -/

theorem rhcInner_commits {σ : Type} (p : Problem σ) (nbr : ℕ → σ → σ) (maxAttempts : ℕ) :
    ∀ fuel n attempts s tr att r, rhcInner p nbr maxAttempts fuel n attempts s tr att = some r →
      ∃ ext, r.commits = tr ++ ext ∧
        List.Chain' (fun a b => p.fitness a ≤ p.fitness b) (s :: ext) ∧
        p.fitness s ≤ p.fitness r.final := by
  intro fuel
  induction fuel with
  | zero =>
    intro n attempts s tr att r h
    rw [rhcInner] at h
    by_cases hA : attempts < maxAttempts
    · rw [if_pos hA] at h; simp at h
    · rw [if_neg hA] at h
      injection h with h
      subst h
      exact ⟨[], by simp, List.chain'_singleton s, le_refl _⟩
  | succ f ih =>
    intro n attempts s tr att r h
    rw [rhcInner] at h
    by_cases hA : attempts < maxAttempts
    · rw [if_pos hA] at h
      simp only at h
      by_cases himp : p.fitness s < p.fitness (nbr n s)
      · rw [if_pos himp] at h
        obtain ⟨ext, hcom, hchain, hfit⟩ := ih _ _ _ _ _ _ h
        refine ⟨nbr n s :: ext, ?_, List.Chain'.cons (le_of_lt himp) hchain,
          le_trans (le_of_lt himp) hfit⟩
        rw [hcom, List.append_assoc]; rfl
      · rw [if_neg himp] at h
        obtain ⟨ext, hcom, hchain, hfit⟩ := ih _ _ _ _ _ _ h
        exact ⟨ext, hcom, hchain, hfit⟩
    · rw [if_neg hA] at h
      injection h with h
      subst h
      exact ⟨[], by simp, List.chain'_singleton s, le_refl _⟩

theorem rhcInner_attTrace {σ : Type} (p : Problem σ) (nbr : ℕ → σ → σ) (maxAttempts : ℕ) :
    ∀ fuel n attempts s tr att r, rhcInner p nbr maxAttempts fuel n attempts s tr att = some r →
      (∀ a ∈ att, a ≤ maxAttempts) → ∀ a ∈ r.attTrace, a ≤ maxAttempts := by
  intro fuel
  induction fuel with
  | zero =>
    intro n attempts s tr att r h hbnd
    rw [rhcInner] at h
    by_cases hA : attempts < maxAttempts
    · rw [if_pos hA] at h; simp at h
    · rw [if_neg hA] at h
      injection h with h
      subst h
      exact hbnd
  | succ f ih =>
    intro n attempts s tr att r h hbnd
    rw [rhcInner] at h
    by_cases hA : attempts < maxAttempts
    · rw [if_pos hA] at h
      simp only at h
      by_cases himp : p.fitness s < p.fitness (nbr n s)
      · rw [if_pos himp] at h
        refine ih _ _ _ _ _ _ h ?_
        intro a ha
        rcases List.mem_append.mp ha with ha | ha
        · exact hbnd a ha
        · rw [List.mem_singleton.mp ha]; omega
      · rw [if_neg himp] at h
        refine ih _ _ _ _ _ _ h ?_
        intro a ha
        rcases List.mem_append.mp ha with ha | ha
        · exact hbnd a ha
        · rw [List.mem_singleton.mp ha]; omega
    · rw [if_neg hA] at h
      injection h with h
      subst h
      exact hbnd

theorem rhcInner_term {σ : Type} [Fintype σ] (p : Problem σ) (nbr : ℕ → σ → σ)
    (maxAttempts : ℕ) :
    ∀ fuel n attempts s tr att,
      improveCard p s * (maxAttempts + 1) + (maxAttempts - attempts) < fuel →
      ∃ r, rhcInner p nbr maxAttempts fuel n attempts s tr att = some r := by
  intro fuel
  induction fuel with
  | zero => intro n attempts s tr att h; omega
  | succ f ih =>
    intro n attempts s tr att h
    rw [rhcInner]
    by_cases hA : attempts < maxAttempts
    · rw [if_pos hA]
      simp only
      by_cases himp : p.fitness s < p.fitness (nbr n s)
      · rw [if_pos himp]
        refine ih _ _ _ _ _ ?_
        have hlt := improveCard_lt p himp
        have hmul : (improveCard p (nbr n s) + 1) * (maxAttempts + 1) ≤
            improveCard p s * (maxAttempts + 1) :=
          Nat.mul_le_mul_right _ hlt
        have hexp : (improveCard p (nbr n s) + 1) * (maxAttempts + 1) =
            improveCard p (nbr n s) * (maxAttempts + 1) + (maxAttempts + 1) := by ring
        omega
      · rw [if_neg himp]
        refine ih _ _ _ _ _ ?_
        omega
    · rw [if_neg hA]
      exact ⟨⟨n, s, tr, att⟩, rfl⟩

/-! Lemmas about the random_hill_climb restart loop. -/

theorem rhcMain_spec {σ : Type} (p : Problem σ) (init : ℕ → σ) (nbr : ℕ → σ → σ)
    (maxAttempts fuel : ℕ) :
    ∀ rl i n bs bf runs out, rhcMain p init nbr maxAttempts fuel i rl n bs bf runs = some out →
      (∃ ext, out.2.2 = runs ++ ext) ∧
      out.2.2.length = runs.length + rl ∧
      FVal.le bf out.2.1 = true ∧
      (∀ run ∈ out.2.2, run ∈ runs ∨
        FVal.le (FVal.fin (p.fitness run.final)) out.2.1 = true) ∧
      ((out.1 = bs ∧ out.2.1 = bf) ∨
        ∃ run ∈ out.2.2, out.1 = some run.final ∧
          out.2.1 = FVal.fin (p.fitness run.final)) := by
  intro rl
  induction rl with
  | zero =>
    intro i n bs bf runs out h
    rw [rhcMain] at h
    injection h with h
    subst h
    exact ⟨⟨[], by simp⟩, by simp, fval_le_refl bf, fun run hr => Or.inl hr,
      Or.inl ⟨rfl, rfl⟩⟩
  | succ rl ih =>
    intro i n bs bf runs out h
    rw [rhcMain] at h
    cases hinner : rhcInner p nbr maxAttempts fuel n 0 (init i) [] [] with
    | none => rw [hinner] at h; simp at h
    | some run0 =>
      rw [hinner] at h
      simp only at h
      by_cases hlt : FVal.lt bf (FVal.fin (p.fitness run0.final)) = true
      · rw [if_pos hlt] at h
        obtain ⟨⟨ext, hpre⟩, hlen, hle, hall, hatt⟩ := ih _ _ _ _ _ _ h
        have hmem0 : run0 ∈ out.2.2 := by
          rw [hpre]
          exact List.mem_append.mpr (Or.inl (List.mem_append.mpr (Or.inr (List.mem_singleton.mpr rfl))))
        refine ⟨⟨run0 :: ext, by rw [hpre, List.append_assoc]; rfl⟩, ?_, ?_, ?_, ?_⟩
        · rw [hlen]; simp; omega
        · exact fval_le_trans (fval_le_of_lt hlt) hle
        · intro run hr
          rcases hall run hr with hin | hgood
          · rcases List.mem_append.mp hin with hin | hin
            · exact Or.inl hin
            · right
              rw [List.mem_singleton.mp hin]
              exact hle
          · exact Or.inr hgood
        · rcases hatt with ⟨h1, h2⟩ | ⟨run, hm, h1, h2⟩
          · exact Or.inr ⟨run0, hmem0, h1, h2⟩
          · exact Or.inr ⟨run, hm, h1, h2⟩
      · rw [if_neg (by simp_all)] at h
        obtain ⟨⟨ext, hpre⟩, hlen, hle, hall, hatt⟩ := ih _ _ _ _ _ _ h
        refine ⟨⟨run0 :: ext, by rw [hpre, List.append_assoc]; rfl⟩, ?_, hle, ?_, hatt⟩
        · rw [hlen]; simp; omega
        · intro run hr
          rcases hall run hr with hin | hgood
          · rcases List.mem_append.mp hin with hin | hin
            · exact Or.inl hin
            · right
              rw [List.mem_singleton.mp hin]
              have h0 : FVal.lt bf (FVal.fin (p.fitness run0.final)) = false :=
                Bool.not_eq_true _ ▸ hlt
              exact fval_le_trans (fval_le_of_not_lt h0) hle
          · exact Or.inr hgood

theorem rhcMain_runs_from_inner {σ : Type} (p : Problem σ) (init : ℕ → σ) (nbr : ℕ → σ → σ)
    (maxAttempts fuel : ℕ) :
    ∀ rl i n bs bf runs out, rhcMain p init nbr maxAttempts fuel i rl n bs bf runs = some out →
      ∀ run ∈ out.2.2, run ∈ runs ∨
        ∃ j n', rhcInner p nbr maxAttempts fuel n' 0 (init j) [] [] = some run := by
  intro rl
  induction rl with
  | zero =>
    intro i n bs bf runs out h
    rw [rhcMain] at h
    injection h with h
    subst h
    exact fun run hr => Or.inl hr
  | succ rl ih =>
    intro i n bs bf runs out h
    rw [rhcMain] at h
    cases hinner : rhcInner p nbr maxAttempts fuel n 0 (init i) [] [] with
    | none => rw [hinner] at h; simp at h
    | some run0 =>
      rw [hinner] at h
      simp only at h
      by_cases hlt : FVal.lt bf (FVal.fin (p.fitness run0.final)) = true
      · rw [if_pos hlt] at h
        intro run hr
        rcases ih _ _ _ _ _ _ h run hr with hin | hgood
        · rcases List.mem_append.mp hin with hin | hin
          · exact Or.inl hin
          · exact Or.inr ⟨i, n, by rw [List.mem_singleton.mp hin]; exact hinner⟩
        · exact Or.inr hgood
      · rw [if_neg (by simp_all)] at h
        intro run hr
        rcases ih _ _ _ _ _ _ h run hr with hin | hgood
        · rcases List.mem_append.mp hin with hin | hin
          · exact Or.inl hin
          · exact Or.inr ⟨i, n, by rw [List.mem_singleton.mp hin]; exact hinner⟩
        · exact Or.inr hgood

theorem rhcMain_term {σ : Type} (p : Problem σ) (init : ℕ → σ) (nbr : ℕ → σ → σ)
    (maxAttempts fuel : ℕ)
    (hfuel : ∀ n s, ∃ r, rhcInner p nbr maxAttempts fuel n 0 s [] [] = some r) :
    ∀ rl i n bs bf runs, ∃ out, rhcMain p init nbr maxAttempts fuel i rl n bs bf runs = some out := by
  intro rl
  induction rl with
  | zero => intro i n bs bf runs; exact ⟨(bs, bf, runs), rfl⟩
  | succ rl ih =>
    intro i n bs bf runs
    obtain ⟨run0, hrun0⟩ := hfuel n (init i)
    rw [rhcMain, hrun0]
    simp only
    by_cases hlt : FVal.lt bf (FVal.fin (p.fitness run0.final)) = true
    · rw [if_pos hlt]; exact ih _ _ _ _ _
    · rw [if_neg (by simp_all)]; exact ih _ _ _ _ _

/-! Lemmas about the simulated_annealing loop. -/

theorem saLoop_evals_temp {σ : Type} (p : Problem σ) (sched : ℕ → ℚ) (nbr : ℕ → σ → σ)
    (accTest : ℕ → ℚ → ℚ → Bool) (maxAttempts : ℕ) :
    ∀ fuel t attempts s evals uses att r,
      saLoop p sched nbr accTest maxAttempts fuel t attempts s evals uses att = some r →
      (∀ pr ∈ evals, pr.2 ≠ 0 ∧ ∃ t', pr.2 = sched t') →
      ∀ pr ∈ r.evals, pr.2 ≠ 0 ∧ ∃ t', pr.2 = sched t' := by
  intro fuel
  induction fuel with
  | zero =>
    intro t attempts s evals uses att r h hbnd
    rw [saLoop] at h
    by_cases hA : attempts < maxAttempts
    · rw [if_pos hA] at h; simp at h
    · rw [if_neg hA] at h
      injection h with h
      subst h
      exact hbnd
  | succ f ih =>
    intro t attempts s evals uses att r h hbnd
    rw [saLoop] at h
    by_cases hA : attempts < maxAttempts
    · rw [if_pos hA] at h
      simp only at h
      by_cases htemp : sched t = 0
      · rw [if_pos htemp] at h
        injection h with h
        subst h
        exact hbnd
      · rw [if_neg htemp] at h
        have hext : ∀ pr ∈ evals ++ [(p.fitness (nbr t s) - p.fitness s, sched t)],
            pr.2 ≠ 0 ∧ ∃ t', pr.2 = sched t' := by
          intro pr hpr
          rcases List.mem_append.mp hpr with hpr | hpr
          · exact hbnd pr hpr
          · rw [List.mem_singleton.mp hpr]
            exact ⟨htemp, t, rfl⟩
        by_cases himp : 0 < p.fitness (nbr t s) - p.fitness s
        · rw [if_pos himp] at h
          exact ih _ _ _ _ _ _ _ h hext
        · rw [if_neg himp] at h
          by_cases hacc : accTest t (p.fitness (nbr t s) - p.fitness s) (sched t) = true
          · rw [if_pos hacc] at h
            exact ih _ _ _ _ _ _ _ h hext
          · rw [if_neg (by simp_all)] at h
            exact ih _ _ _ _ _ _ _ h hext
    · rw [if_neg hA] at h
      injection h with h
      subst h
      exact hbnd

theorem saLoop_t_le {σ : Type} (p : Problem σ) (sched : ℕ → ℚ) (nbr : ℕ → σ → σ)
    (accTest : ℕ → ℚ → ℚ → Bool) (maxAttempts t0 : ℕ) (hz : sched t0 = 0) :
    ∀ fuel t attempts s evals uses att r,
      saLoop p sched nbr accTest maxAttempts fuel t attempts s evals uses att = some r →
      t ≤ t0 → r.t ≤ t0 := by
  intro fuel
  induction fuel with
  | zero =>
    intro t attempts s evals uses att r h ht
    rw [saLoop] at h
    by_cases hA : attempts < maxAttempts
    · rw [if_pos hA] at h; simp at h
    · rw [if_neg hA] at h
      injection h with h
      subst h
      exact ht
  | succ f ih =>
    intro t attempts s evals uses att r h ht
    rw [saLoop] at h
    by_cases hA : attempts < maxAttempts
    · rw [if_pos hA] at h
      simp only at h
      by_cases htemp : sched t = 0
      · rw [if_pos htemp] at h
        injection h with h
        subst h
        exact ht
      · rw [if_neg htemp] at h
        have ht' : t + 1 ≤ t0 := by
          rcases lt_or_eq_of_le ht with h' | h'
          · omega
          · rw [h'] at htemp; exact absurd hz htemp
        by_cases himp : 0 < p.fitness (nbr t s) - p.fitness s
        · rw [if_pos himp] at h
          exact ih _ _ _ _ _ _ _ h ht'
        · rw [if_neg himp] at h
          by_cases hacc : accTest t (p.fitness (nbr t s) - p.fitness s) (sched t) = true
          · rw [if_pos hacc] at h
            exact ih _ _ _ _ _ _ _ h ht'
          · rw [if_neg (by simp_all)] at h
            exact ih _ _ _ _ _ _ _ h ht'
    · rw [if_neg hA] at h
      injection h with h
      subst h
      exact ht

theorem saLoop_evals_len {σ : Type} (p : Problem σ) (sched : ℕ → ℚ) (nbr : ℕ → σ → σ)
    (accTest : ℕ → ℚ → ℚ → Bool) (maxAttempts : ℕ) :
    ∀ fuel t attempts s evals uses att r,
      saLoop p sched nbr accTest maxAttempts fuel t attempts s evals uses att = some r →
      r.evals.length + t = evals.length + r.t := by
  intro fuel
  induction fuel with
  | zero =>
    intro t attempts s evals uses att r h
    rw [saLoop] at h
    by_cases hA : attempts < maxAttempts
    · rw [if_pos hA] at h; simp at h
    · rw [if_neg hA] at h
      injection h with h
      subst h
      rfl
  | succ f ih =>
    intro t attempts s evals uses att r h
    rw [saLoop] at h
    by_cases hA : attempts < maxAttempts
    · rw [if_pos hA] at h
      simp only at h
      by_cases htemp : sched t = 0
      · rw [if_pos htemp] at h
        injection h with h
        subst h
        rfl
      · rw [if_neg htemp] at h
        by_cases himp : 0 < p.fitness (nbr t s) - p.fitness s
        · rw [if_pos himp] at h
          have := ih _ _ _ _ _ _ _ h
          simp only [List.length_append, List.length_singleton] at this
          omega
        · rw [if_neg himp] at h
          by_cases hacc : accTest t (p.fitness (nbr t s) - p.fitness s) (sched t) = true
          · rw [if_pos hacc] at h
            have := ih _ _ _ _ _ _ _ h
            simp only [List.length_append, List.length_singleton] at this
            omega
          · rw [if_neg (by simp_all)] at h
            have := ih _ _ _ _ _ _ _ h
            simp only [List.length_append, List.length_singleton] at this
            omega
    · rw [if_neg hA] at h
      injection h with h
      subst h
      rfl

theorem saLoop_term_of_zero {σ : Type} (p : Problem σ) (sched : ℕ → ℚ) (nbr : ℕ → σ → σ)
    (accTest : ℕ → ℚ → ℚ → Bool) (maxAttempts t0 : ℕ) (hz : sched t0 = 0) :
    ∀ k t attempts s evals uses att, t + k = t0 →
      ∃ r, saLoop p sched nbr accTest maxAttempts (k + 1) t attempts s evals uses att = some r := by
  intro k
  induction k with
  | zero =>
    intro t attempts s evals uses att ht
    rw [saLoop]
    by_cases hA : attempts < maxAttempts
    · rw [if_pos hA]
      simp only
      have htemp : sched t = 0 := by rw [← ht] at hz; simpa using hz
      rw [if_pos htemp]
      exact ⟨_, rfl⟩
    · rw [if_neg hA]
      exact ⟨_, rfl⟩
  | succ k ih =>
    intro t attempts s evals uses att ht
    rw [saLoop]
    by_cases hA : attempts < maxAttempts
    · rw [if_pos hA]
      simp only
      by_cases htemp : sched t = 0
      · rw [if_pos htemp]
        exact ⟨_, rfl⟩
      · rw [if_neg htemp]
        by_cases himp : 0 < p.fitness (nbr t s) - p.fitness s
        · rw [if_pos himp]
          exact ih _ _ _ _ _ _ (by omega)
        · rw [if_neg himp]
          by_cases hacc : accTest t (p.fitness (nbr t s) - p.fitness s) (sched t) = true
          · rw [if_pos hacc]
            exact ih _ _ _ _ _ _ (by omega)
          · rw [if_neg (by simp_all)]
            exact ih _ _ _ _ _ _ (by omega)
    · rw [if_neg hA]
      exact ⟨_, rfl⟩

theorem saLoop_uses {σ : Type} (p : Problem σ) (sched : ℕ → ℚ) (nbr : ℕ → σ → σ)
    (accTest : ℕ → ℚ → ℚ → Bool) (maxAttempts : ℕ) :
    ∀ fuel t attempts s evals uses att r,
      saLoop p sched nbr accTest maxAttempts fuel t attempts s evals uses att = some r →
      (∀ pr ∈ uses, pr.1 ≤ 0 ∧ pr.2 ≠ 0 ∧ ∃ t', pr.2 = sched t') →
      ∀ pr ∈ r.uses, pr.1 ≤ 0 ∧ pr.2 ≠ 0 ∧ ∃ t', pr.2 = sched t' := by
  intro fuel
  induction fuel with
  | zero =>
    intro t attempts s evals uses att r h hbnd
    rw [saLoop] at h
    by_cases hA : attempts < maxAttempts
    · rw [if_pos hA] at h; simp at h
    · rw [if_neg hA] at h
      injection h with h
      subst h
      exact hbnd
  | succ f ih =>
    intro t attempts s evals uses att r h hbnd
    rw [saLoop] at h
    by_cases hA : attempts < maxAttempts
    · rw [if_pos hA] at h
      simp only at h
      by_cases htemp : sched t = 0
      · rw [if_pos htemp] at h
        injection h with h
        subst h
        exact hbnd
      · rw [if_neg htemp] at h
        by_cases himp : 0 < p.fitness (nbr t s) - p.fitness s
        · rw [if_pos himp] at h
          exact ih _ _ _ _ _ _ _ h hbnd
        · rw [if_neg himp] at h
          have hext : ∀ pr ∈ uses ++ [(p.fitness (nbr t s) - p.fitness s, sched t)],
              pr.1 ≤ 0 ∧ pr.2 ≠ 0 ∧ ∃ t', pr.2 = sched t' := by
            intro pr hpr
            rcases List.mem_append.mp hpr with hpr | hpr
            · exact hbnd pr hpr
            · rw [List.mem_singleton.mp hpr]
              exact ⟨le_of_not_lt himp, htemp, t, rfl⟩
          by_cases hacc : accTest t (p.fitness (nbr t s) - p.fitness s) (sched t) = true
          · rw [if_pos hacc] at h
            exact ih _ _ _ _ _ _ _ h hext
          · rw [if_neg (by simp_all)] at h
            exact ih _ _ _ _ _ _ _ h hext
    · rw [if_neg hA] at h
      injection h with h
      subst h
      exact hbnd

theorem saLoop_attTrace {σ : Type} (p : Problem σ) (sched : ℕ → ℚ) (nbr : ℕ → σ → σ)
    (accTest : ℕ → ℚ → ℚ → Bool) (maxAttempts : ℕ) :
    ∀ fuel t attempts s evals uses att r,
      saLoop p sched nbr accTest maxAttempts fuel t attempts s evals uses att = some r →
      (∀ a ∈ att, a ≤ maxAttempts) → ∀ a ∈ r.attTrace, a ≤ maxAttempts := by
  intro fuel
  induction fuel with
  | zero =>
    intro t attempts s evals uses att r h hbnd
    rw [saLoop] at h
    by_cases hA : attempts < maxAttempts
    · rw [if_pos hA] at h; simp at h
    · rw [if_neg hA] at h
      injection h with h
      subst h
      exact hbnd
  | succ f ih =>
    intro t attempts s evals uses att r h hbnd
    rw [saLoop] at h
    by_cases hA : attempts < maxAttempts
    · rw [if_pos hA] at h
      simp only at h
      by_cases htemp : sched t = 0
      · rw [if_pos htemp] at h
        injection h with h
        subst h
        exact hbnd
      · rw [if_neg htemp] at h
        have hext0 : ∀ a ∈ att ++ [0], a ≤ maxAttempts := by
          intro a ha
          rcases List.mem_append.mp ha with ha | ha
          · exact hbnd a ha
          · rw [List.mem_singleton.mp ha]; omega
        have hext1 : ∀ a ∈ att ++ [attempts + 1], a ≤ maxAttempts := by
          intro a ha
          rcases List.mem_append.mp ha with ha | ha
          · exact hbnd a ha
          · rw [List.mem_singleton.mp ha]; omega
        by_cases himp : 0 < p.fitness (nbr t s) - p.fitness s
        · rw [if_pos himp] at h
          exact ih _ _ _ _ _ _ _ h hext0
        · rw [if_neg himp] at h
          by_cases hacc : accTest t (p.fitness (nbr t s) - p.fitness s) (sched t) = true
          · rw [if_pos hacc] at h
            exact ih _ _ _ _ _ _ _ h hext0
          · rw [if_neg (by simp_all)] at h
            exact ih _ _ _ _ _ _ _ h hext1
    · rw [if_neg hA] at h
      injection h with h
      subst h
      exact hbnd

/-! Lemmas about the genetic_alg loop. -/

theorem argmaxF_isSome {σ : Type} (p : Problem σ) :
    ∀ l : List σ, l ≠ [] → ∃ b, argmaxF p l = some b := by
  intro l hl
  cases l with
  | nil => exact absurd rfl hl
  | cons x xs => exact ⟨_, rfl⟩

theorem buildNextGen_length {σ : Type} (reproduce : ℕ → σ → σ → ℚ → σ) (sel : ℕ → ℕ × ℕ)
    (mutationProb : ℚ) (pop : List σ) :
    ∀ count d acc gen d',
      buildNextGen reproduce sel mutationProb pop count d acc = some (gen, d') →
      gen.length = acc.length + count ∧ d' = d + count := by
  intro count
  induction count with
  | zero =>
    intro d acc gen d' h
    rw [buildNextGen] at h
    injection h with h
    rw [Prod.mk.injEq] at h
    obtain ⟨h1, h2⟩ := h
    subst h1
    subst h2
    exact ⟨rfl, rfl⟩
  | succ c ih =>
    intro d acc gen d' h
    rw [buildNextGen] at h
    cases h1 : pop[(sel d).1]? with
    | none => rw [h1] at h; simp at h
    | some p1 =>
      cases h2 : pop[(sel d).2]? with
      | none => rw [h1, h2] at h; simp at h
      | some p2 =>
        rw [h1, h2] at h
        simp only at h
        obtain ⟨hlen, hd⟩ := ih _ _ _ _ h
        simp only [List.length_append, List.length_singleton] at hlen
        exact ⟨by omega, by omega⟩

theorem buildNextGen_some {σ : Type} (reproduce : ℕ → σ → σ → ℚ → σ) (sel : ℕ → ℕ × ℕ)
    (mutationProb : ℚ) (pop : List σ)
    (hsel : ∀ j, (sel j).1 < pop.length ∧ (sel j).2 < pop.length) :
    ∀ count d acc, ∃ gen d',
      buildNextGen reproduce sel mutationProb pop count d acc = some (gen, d') := by
  intro count
  induction count with
  | zero => intro d acc; exact ⟨acc, d, rfl⟩
  | succ c ih =>
    intro d acc
    rw [buildNextGen]
    have h1 : pop[(sel d).1]? = some (pop.get ⟨(sel d).1, (hsel d).1⟩) := by
      rw [List.getElem?_eq_getElem (hsel d).1]
      rfl
    have h2 : pop[(sel d).2]? = some (pop.get ⟨(sel d).2, (hsel d).2⟩) := by
      rw [List.getElem?_eq_getElem (hsel d).2]
      rfl
    rw [h1, h2]
    simp only
    exact ih _ _

theorem gaLoop_popLens {σ : Type} (p : Problem σ) (reproduce : ℕ → σ → σ → ℚ → σ)
    (sel : ℕ → ℕ × ℕ) (mutationProb : ℚ) (popSize maxAttempts : ℕ) :
    ∀ fuel d attempts s pop pl att r,
      gaLoop p reproduce sel mutationProb popSize maxAttempts fuel d attempts s pop pl att = some r →
      (∀ x ∈ pl, x = popSize) → ∀ x ∈ r.popLens, x = popSize := by
  intro fuel
  induction fuel with
  | zero =>
    intro d attempts s pop pl att r h hbnd
    rw [gaLoop] at h
    by_cases hA : attempts < maxAttempts
    · rw [if_pos hA] at h; simp at h
    · rw [if_neg hA] at h
      injection h with h
      subst h
      exact hbnd
  | succ f ih =>
    intro d attempts s pop pl att r h hbnd
    rw [gaLoop] at h
    by_cases hA : attempts < maxAttempts
    · rw [if_pos hA] at h
      cases hb : buildNextGen reproduce sel mutationProb pop popSize d [] with
      | none => rw [hb] at h; simp at h
      | some gd =>
        obtain ⟨nextGen, d'⟩ := gd
        rw [hb] at h
        simp only at h
        have hglen : nextGen.length = popSize := by
          have := (buildNextGen_length reproduce sel mutationProb pop popSize d [] nextGen d' hb).1
          simpa using this
        cases hbc : bestChild p nextGen with
        | none => rw [hbc] at h; simp at h
        | some ns =>
          rw [hbc] at h
          simp only at h
          have hext : ∀ x ∈ pl ++ [nextGen.length], x = popSize := by
            intro x hx
            rcases List.mem_append.mp hx with hx | hx
            · exact hbnd x hx
            · rw [List.mem_singleton.mp hx]; exact hglen
          by_cases himp : p.fitness s < p.fitness ns
          · rw [if_pos himp] at h
            exact ih _ _ _ _ _ _ _ h hext
          · rw [if_neg himp] at h
            exact ih _ _ _ _ _ _ _ h hext
    · rw [if_neg hA] at h
      injection h with h
      subst h
      exact hbnd

theorem gaLoop_attTrace {σ : Type} (p : Problem σ) (reproduce : ℕ → σ → σ → ℚ → σ)
    (sel : ℕ → ℕ × ℕ) (mutationProb : ℚ) (popSize maxAttempts : ℕ) :
    ∀ fuel d attempts s pop pl att r,
      gaLoop p reproduce sel mutationProb popSize maxAttempts fuel d attempts s pop pl att = some r →
      (∀ a ∈ att, a ≤ maxAttempts) → ∀ a ∈ r.attTrace, a ≤ maxAttempts := by
  intro fuel
  induction fuel with
  | zero =>
    intro d attempts s pop pl att r h hbnd
    rw [gaLoop] at h
    by_cases hA : attempts < maxAttempts
    · rw [if_pos hA] at h; simp at h
    · rw [if_neg hA] at h
      injection h with h
      subst h
      exact hbnd
  | succ f ih =>
    intro d attempts s pop pl att r h hbnd
    rw [gaLoop] at h
    by_cases hA : attempts < maxAttempts
    · rw [if_pos hA] at h
      cases hb : buildNextGen reproduce sel mutationProb pop popSize d [] with
      | none => rw [hb] at h; simp at h
      | some gd =>
        obtain ⟨nextGen, d'⟩ := gd
        rw [hb] at h
        simp only at h
        cases hbc : bestChild p nextGen with
        | none => rw [hbc] at h; simp at h
        | some ns =>
          rw [hbc] at h
          simp only at h
          have hext0 : ∀ a ∈ att ++ [0], a ≤ maxAttempts := by
            intro a ha
            rcases List.mem_append.mp ha with ha | ha
            · exact hbnd a ha
            · rw [List.mem_singleton.mp ha]; omega
          have hext1 : ∀ a ∈ att ++ [attempts + 1], a ≤ maxAttempts := by
            intro a ha
            rcases List.mem_append.mp ha with ha | ha
            · exact hbnd a ha
            · rw [List.mem_singleton.mp ha]; omega
          by_cases himp : p.fitness s < p.fitness ns
          · rw [if_pos himp] at h
            exact ih _ _ _ _ _ _ _ h hext0
          · rw [if_neg himp] at h
            exact ih _ _ _ _ _ _ _ h hext1
    · rw [if_neg hA] at h
      injection h with h
      subst h
      exact hbnd

theorem gaLoop_term {σ : Type} [Fintype σ] (p : Problem σ) (reproduce : ℕ → σ → σ → ℚ → σ)
    (sel : ℕ → ℕ × ℕ) (mutationProb : ℚ) (popSize maxAttempts : ℕ)
    (hsel : ∀ j, (sel j).1 < popSize ∧ (sel j).2 < popSize) (hpos : popSize ≠ 0) :
    ∀ fuel d attempts s pop pl att, pop.length = popSize →
      improveCard p s * (maxAttempts + 1) + (maxAttempts - attempts) < fuel →
      ∃ r, gaLoop p reproduce sel mutationProb popSize maxAttempts fuel d attempts s pop pl att = some r := by
  intro fuel
  induction fuel with
  | zero => intro d attempts s pop pl att hlen h; omega
  | succ f ih =>
    intro d attempts s pop pl att hlen h
    rw [gaLoop]
    by_cases hA : attempts < maxAttempts
    · rw [if_pos hA]
      have hsel' : ∀ j, (sel j).1 < pop.length ∧ (sel j).2 < pop.length := by
        intro j; rw [hlen]; exact hsel j
      obtain ⟨nextGen, d', hb⟩ := buildNextGen_some reproduce sel mutationProb pop hsel' popSize d []
      rw [hb]
      simp only
      have hglen : nextGen.length = popSize := by
        have := (buildNextGen_length reproduce sel mutationProb pop popSize d [] nextGen d' hb).1
        simpa using this
      have hne : nextGen ≠ [] := by
        intro hnil
        rw [hnil] at hglen
        exact hpos hglen.symm
      obtain ⟨ns, hbc⟩ := argmaxF_isSome p nextGen hne
      rw [show bestChild p nextGen = some ns from hbc]
      simp only
      by_cases himp : p.fitness s < p.fitness ns
      · rw [if_pos himp]
        refine ih _ _ _ _ _ _ hglen ?_
        have hlt := improveCard_lt p himp
        have hmul : (improveCard p ns + 1) * (maxAttempts + 1) ≤
            improveCard p s * (maxAttempts + 1) :=
          Nat.mul_le_mul_right _ hlt
        have hexp : (improveCard p ns + 1) * (maxAttempts + 1) =
            improveCard p ns * (maxAttempts + 1) + (maxAttempts + 1) := by ring
        omega
      · rw [if_neg himp]
        refine ih _ _ _ _ _ _ hglen ?_
        omega
    · rw [if_neg hA]
      exact ⟨_, rfl⟩

/-! Lemmas about the mimic loop. -/

theorem mimicLoop_popLens {σ : Type} (p : Problem σ) (sample : ℕ → ℕ → List σ)
    (popSize maxAttempts : ℕ) (hsam : ∀ g, (sample g popSize).length = popSize) :
    ∀ fuel g attempts s pop pl att r,
      mimicLoop p sample popSize maxAttempts fuel g attempts s pop pl att = some r →
      (∀ x ∈ pl, x = popSize) → ∀ x ∈ r.popLens, x = popSize := by
  intro fuel
  induction fuel with
  | zero =>
    intro g attempts s pop pl att r h hbnd
    rw [mimicLoop] at h
    by_cases hA : attempts < maxAttempts
    · rw [if_pos hA] at h; simp at h
    · rw [if_neg hA] at h
      injection h with h
      subst h
      exact hbnd
  | succ f ih =>
    intro g attempts s pop pl att r h hbnd
    rw [mimicLoop] at h
    by_cases hA : attempts < maxAttempts
    · rw [if_pos hA] at h
      simp only at h
      cases hbc : bestChild p (sample g popSize) with
      | none => rw [hbc] at h; simp at h
      | some ns =>
        rw [hbc] at h
        simp only at h
        have hext : ∀ x ∈ pl ++ [(sample g popSize).length], x = popSize := by
          intro x hx
          rcases List.mem_append.mp hx with hx | hx
          · exact hbnd x hx
          · rw [List.mem_singleton.mp hx]; exact hsam g
        by_cases himp : p.fitness s < p.fitness ns
        · rw [if_pos himp] at h
          exact ih _ _ _ _ _ _ _ h hext
        · rw [if_neg himp] at h
          exact ih _ _ _ _ _ _ _ h hext
    · rw [if_neg hA] at h
      injection h with h
      subst h
      exact hbnd

theorem mimicLoop_attTrace {σ : Type} (p : Problem σ) (sample : ℕ → ℕ → List σ)
    (popSize maxAttempts : ℕ) :
    ∀ fuel g attempts s pop pl att r,
      mimicLoop p sample popSize maxAttempts fuel g attempts s pop pl att = some r →
      (∀ a ∈ att, a ≤ maxAttempts) → ∀ a ∈ r.attTrace, a ≤ maxAttempts := by
  intro fuel
  induction fuel with
  | zero =>
    intro g attempts s pop pl att r h hbnd
    rw [mimicLoop] at h
    by_cases hA : attempts < maxAttempts
    · rw [if_pos hA] at h; simp at h
    · rw [if_neg hA] at h
      injection h with h
      subst h
      exact hbnd
  | succ f ih =>
    intro g attempts s pop pl att r h hbnd
    rw [mimicLoop] at h
    by_cases hA : attempts < maxAttempts
    · rw [if_pos hA] at h
      simp only at h
      cases hbc : bestChild p (sample g popSize) with
      | none => rw [hbc] at h; simp at h
      | some ns =>
        rw [hbc] at h
        simp only at h
        have hext0 : ∀ a ∈ att ++ [0], a ≤ maxAttempts := by
          intro a ha
          rcases List.mem_append.mp ha with ha | ha
          · exact hbnd a ha
          · rw [List.mem_singleton.mp ha]; omega
        have hext1 : ∀ a ∈ att ++ [attempts + 1], a ≤ maxAttempts := by
          intro a ha
          rcases List.mem_append.mp ha with ha | ha
          · exact hbnd a ha
          · rw [List.mem_singleton.mp ha]; omega
        by_cases himp : p.fitness s < p.fitness ns
        · rw [if_pos himp] at h
          exact ih _ _ _ _ _ _ _ h hext0
        · rw [if_neg himp] at h
          exact ih _ _ _ _ _ _ _ h hext1
    · rw [if_neg hA] at h
      injection h with h
      subst h
      exact hbnd

theorem mimicLoop_term {σ : Type} [Fintype σ] (p : Problem σ) (sample : ℕ → ℕ → List σ)
    (popSize maxAttempts : ℕ) (hsam : ∀ g, sample g popSize ≠ []) :
    ∀ fuel g attempts s pop pl att,
      improveCard p s * (maxAttempts + 1) + (maxAttempts - attempts) < fuel →
      ∃ r, mimicLoop p sample popSize maxAttempts fuel g attempts s pop pl att = some r := by
  intro fuel
  induction fuel with
  | zero => intro g attempts s pop pl att h; omega
  | succ f ih =>
    intro g attempts s pop pl att h
    rw [mimicLoop]
    by_cases hA : attempts < maxAttempts
    · rw [if_pos hA]
      simp only
      obtain ⟨ns, hbc⟩ := argmaxF_isSome p (sample g popSize) (hsam g)
      rw [show bestChild p (sample g popSize) = some ns from hbc]
      simp only
      by_cases himp : p.fitness s < p.fitness ns
      · rw [if_pos himp]
        refine ih _ _ _ _ _ _ ?_
        have hlt := improveCard_lt p himp
        have hmul : (improveCard p ns + 1) * (maxAttempts + 1) ≤
            improveCard p s * (maxAttempts + 1) :=
          Nat.mul_le_mul_right _ hlt
        have hexp : (improveCard p ns + 1) * (maxAttempts + 1) =
            improveCard p ns * (maxAttempts + 1) + (maxAttempts + 1) := by ring
        omega
      · rw [if_neg himp]
        refine ih _ _ _ _ _ _ ?_
        omega
    · rw [if_neg hA]
      exact ⟨_, rfl⟩

/-! Orientation helper lemmas. -/

theorem mulSign_one (v : FVal) : mulSign 1 v = v := by
  cases v <;> simp [mulSign]

theorem mulSign_negOne (v : FVal) : mulSign (-1) v = FVal.neg v := by
  cases v <;> simp [mulSign, FVal.neg]

/-! Concrete instances used to exercise the theorems. -/

/-- Two-state problem: fitness 1 on true, 0 on false, maximization, the
single neighbor of a state being its flip. -/
def pB : Problem Bool :=
  { fitness := fun b => if b then 1 else 0, maximize := 1, neighbors := fun b => [!b] }

/-- The same two-state problem with minimization orientation. -/
def pBmin : Problem Bool :=
  { fitness := fun b => if b then 1 else 0, maximize := -1, neighbors := fun b => [!b] }

/-- Unbounded problem whose single neighbor always strictly improves: the
adversary for the termination claim. -/
def pNat : Problem ℕ :=
  { fitness := fun n => (n : ℚ), maximize := 1, neighbors := fun n => [n + 1] }

/-- Constant initial-state oracle. -/
def initFalse : ℕ → Bool := fun _ => false

/-- Neighbor oracle that always proposes true. -/
def nbrTrue : ℕ → Bool → Bool := fun _ _ => true

/-- Constant temperature schedule 1. -/
def schedOne : ℕ → ℚ := fun _ => 1

/-- Schedule that is 1 at time 0 and 0 afterwards. -/
def schedZ1 : ℕ → ℚ := fun t => if t = 0 then 1 else 0

/-- Acceptance-test oracle that always rejects. -/
def accFalse : ℕ → ℚ → ℚ → Bool := fun _ _ _ => false

/-- Parent-selection oracle returning indices 0 and 1. -/
def sel01 : ℕ → ℕ × ℕ := fun _ => (0, 1)

/-- Reproduction oracle returning the first parent. -/
def reprFst : ℕ → Bool → Bool → ℚ → Bool := fun _ a _ _ => a

/-- Sampling oracle returning n copies of true. -/
def sampleTrue : ℕ → ℕ → List Bool := fun _ n => List.replicate n true

theorem pNat_inner_none : ∀ fuel n tr, hillClimbInner pNat fuel n tr = none := by
  intro fuel
  induction fuel with
  | zero => intro n tr; rfl
  | succ f ih =>
    intro n tr
    rw [hillClimbInner]
    have hbn : bestNeighbor pNat n = n + 1 := rfl
    rw [hbn]
    have himp : pNat.fitness n < pNat.fitness (n + 1) := by
      show (n : ℚ) < ((n + 1 : ℕ) : ℚ)
      exact_mod_cast Nat.lt_succ_self n
    rw [if_pos himp]
    exact ih _ _

/-- C1.  For every driver, the fitness handed back to the caller is the
orientation value get_maximize() times the internally tracked best fitness,
applied exactly once at the final return (algorithms.py lines 51, 98, 155,
217, 268): with maximize = +1 the internal best is returned unchanged, with
maximize = -1 its negation is returned.  The internal best is the FVal
accumulated by the restart loop for hill_climb / random_hill_climb, and the
fitness of the final committed state for the three single-run drivers. -/
theorem claim1_orientation :
    (∀ (σ : Type) (p : Problem σ) (init : ℕ → σ) (restarts fuel : ℕ) (bs : Option σ)
        (bf : FVal) (runs : List (HCRun σ)),
        hillClimbMain p init fuel 0 restarts none FVal.negInf [] = some (bs, bf, runs) →
        hill_climb p init restarts fuel = some (bs, mulSign p.maximize bf) ∧
        (p.maximize = 1 → hill_climb p init restarts fuel = some (bs, bf)) ∧
        (p.maximize = -1 → hill_climb p init restarts fuel = some (bs, FVal.neg bf))) ∧
    (∀ (σ : Type) (p : Problem σ) (init : ℕ → σ) (nbr : ℕ → σ → σ)
        (maxAttempts restarts fuel : ℕ) (bs : Option σ) (bf : FVal) (runs : List (RHCRun σ)),
        rhcMain p init nbr maxAttempts fuel 0 restarts 0 none FVal.negInf [] = some (bs, bf, runs) →
        random_hill_climb p init nbr maxAttempts restarts fuel = some (bs, mulSign p.maximize bf) ∧
        (p.maximize = 1 → random_hill_climb p init nbr maxAttempts restarts fuel = some (bs, bf)) ∧
        (p.maximize = -1 →
          random_hill_climb p init nbr maxAttempts restarts fuel = some (bs, FVal.neg bf))) ∧
    (∀ (σ : Type) (p : Problem σ) (s0 : σ) (sched : ℕ → ℚ) (nbr : ℕ → σ → σ)
        (accTest : ℕ → ℚ → ℚ → Bool) (maxAttempts fuel : ℕ) (r : SARun σ),
        saLoop p sched nbr accTest maxAttempts fuel 0 0 s0 [] [] [] = some r →
        simulated_annealing p s0 sched nbr accTest maxAttempts fuel =
          some (r.final, (p.maximize : ℚ) * p.fitness r.final) ∧
        (p.maximize = 1 → simulated_annealing p s0 sched nbr accTest maxAttempts fuel =
          some (r.final, p.fitness r.final)) ∧
        (p.maximize = -1 → simulated_annealing p s0 sched nbr accTest maxAttempts fuel =
          some (r.final, -(p.fitness r.final)))) ∧
    (∀ (σ : Type) (p : Problem σ) (s0 : σ) (pop0 : List σ) (reproduce : ℕ → σ → σ → ℚ → σ)
        (sel : ℕ → ℕ × ℕ) (mutationProb : ℚ) (popSize maxAttempts fuel : ℕ) (r : PopRun σ),
        gaLoop p reproduce sel mutationProb popSize maxAttempts fuel 0 0 s0 pop0 [] [] = some r →
        genetic_alg p s0 pop0 reproduce sel mutationProb popSize maxAttempts fuel =
          some (r.final, (p.maximize : ℚ) * p.fitness r.final) ∧
        (p.maximize = 1 → genetic_alg p s0 pop0 reproduce sel mutationProb popSize maxAttempts fuel =
          some (r.final, p.fitness r.final)) ∧
        (p.maximize = -1 → genetic_alg p s0 pop0 reproduce sel mutationProb popSize maxAttempts fuel =
          some (r.final, -(p.fitness r.final)))) ∧
    (∀ (σ : Type) (p : Problem σ) (s0 : σ) (pop0 : List σ) (sample : ℕ → ℕ → List σ)
        (popSize maxAttempts fuel : ℕ) (r : PopRun σ),
        mimicLoop p sample popSize maxAttempts fuel 0 0 s0 pop0 [] [] = some r →
        mimic p s0 pop0 sample popSize maxAttempts fuel =
          some (r.final, (p.maximize : ℚ) * p.fitness r.final) ∧
        (p.maximize = 1 → mimic p s0 pop0 sample popSize maxAttempts fuel =
          some (r.final, p.fitness r.final)) ∧
        (p.maximize = -1 → mimic p s0 pop0 sample popSize maxAttempts fuel =
          some (r.final, -(p.fitness r.final)))) := by
  refine ⟨?_, ?_, ?_, ?_, ?_⟩
  · intro σ p init restarts fuel bs bf runs h
    have hmain : hill_climb p init restarts fuel = some (bs, mulSign p.maximize bf) := by
      rw [hill_climb, h]
    refine ⟨hmain, ?_, ?_⟩
    · intro hmax; rw [hmain, hmax, mulSign_one]
    · intro hmax; rw [hmain, hmax, mulSign_negOne]
  · intro σ p init nbr maxAttempts restarts fuel bs bf runs h
    have hmain : random_hill_climb p init nbr maxAttempts restarts fuel =
        some (bs, mulSign p.maximize bf) := by
      rw [random_hill_climb, h]
    refine ⟨hmain, ?_, ?_⟩
    · intro hmax; rw [hmain, hmax, mulSign_one]
    · intro hmax; rw [hmain, hmax, mulSign_negOne]
  · intro σ p s0 sched nbr accTest maxAttempts fuel r h
    have hmain : simulated_annealing p s0 sched nbr accTest maxAttempts fuel =
        some (r.final, (p.maximize : ℚ) * p.fitness r.final) := by
      rw [simulated_annealing, h]
    refine ⟨hmain, ?_, ?_⟩
    · intro hmax; rw [hmain, hmax]; norm_num
    · intro hmax; rw [hmain, hmax]; norm_num
  · intro σ p s0 pop0 reproduce sel mutationProb popSize maxAttempts fuel r h
    have hmain : genetic_alg p s0 pop0 reproduce sel mutationProb popSize maxAttempts fuel =
        some (r.final, (p.maximize : ℚ) * p.fitness r.final) := by
      rw [genetic_alg, h]
    refine ⟨hmain, ?_, ?_⟩
    · intro hmax; rw [hmain, hmax]; norm_num
    · intro hmax; rw [hmain, hmax]; norm_num
  · intro σ p s0 pop0 sample popSize maxAttempts fuel r h
    have hmain : mimic p s0 pop0 sample popSize maxAttempts fuel =
        some (r.final, (p.maximize : ℚ) * p.fitness r.final) := by
      rw [mimic, h]
    refine ⟨hmain, ?_, ?_⟩
    · intro hmax; rw [hmain, hmax]; norm_num
    · intro hmax; rw [hmain, hmax]; norm_num

/-- Witness for C1: the orientation relation evaluated on concrete runs of
all five drivers, over the two-state problem with maximize = +1 and with
maximize = -1. -/
theorem claim1_orientation_witness :
    (hill_climb pB initFalse 1 3 = some (some true, FVal.fin 1)) ∧
    (hill_climb pBmin initFalse 1 3 = some (some true, FVal.fin (-1))) ∧
    (random_hill_climb pB initFalse nbrTrue 2 1 5 = some (some true, FVal.fin 1)) ∧
    (simulated_annealing pBmin false schedOne nbrTrue accFalse 1 5 = some (true, -(1 : ℚ))) ∧
    (genetic_alg pB false [false, true] reprFst sel01 (1/10) 2 2 10 = some (false, (0 : ℚ))) ∧
    (mimic pBmin false [false, true] sampleTrue 2 2 10 = some (true, -(1 : ℚ))) := by
  refine ⟨?_, ?_, ?_, ?_, ?_, ?_⟩
  · have h := (claim1_orientation.1 Bool pB initFalse 1 3 (some true) (FVal.fin 1)
      [⟨true, [true]⟩] (by decide)).2.1 rfl
    simpa using h
  · have h := (claim1_orientation.1 Bool pBmin initFalse 1 3 (some true) (FVal.fin 1)
      [⟨true, [true]⟩] (by decide)).2.2 rfl
    simpa [FVal.neg] using h
  · have h := (claim1_orientation.2.1 Bool pB initFalse nbrTrue 2 1 5 (some true) (FVal.fin 1)
      [⟨3, true, [true], [0, 1, 2]⟩] (by decide)).2.1 rfl
    simpa using h
  · have h := (claim1_orientation.2.2.1 Bool pBmin false schedOne nbrTrue accFalse 1 5
      ⟨true, 2, [(1, 1), (0, 1)], [(0, 1)], [0, 1]⟩
      (by simp [saLoop, pBmin, schedOne, nbrTrue, accFalse])).2.2 rfl
    simpa [pBmin] using h
  · have h := (claim1_orientation.2.2.2.1 Bool pB false [false, true] reprFst sel01 (1/10) 2 2 10
      ⟨false, [2, 2], [1, 2]⟩ (by decide)).2.1 rfl
    simpa [pB] using h
  · have h := (claim1_orientation.2.2.2.2 Bool pBmin false [false, true] sampleTrue 2 2 10
      ⟨true, [2, 2, 2], [0, 1, 2]⟩ (by decide)).2.2 rfl
    simpa [pBmin] using h

/-- C10.  With restarts = 0 hill_climb and random_hill_climb skip the
restart loop entirely: no reset and no neighbor evaluation happens (the
result does not depend on the init or neighbor oracles) and the returned
pair is (None, get_maximize() * -inf), i.e. -inf for maximize = +1 and
+inf for maximize = -1. -/
theorem claim10_zero_restarts :
    ∀ (σ : Type) (p : Problem σ) (init : ℕ → σ) (nbr : ℕ → σ → σ) (maxAttempts fuel : ℕ),
      hill_climb p init 0 fuel = some (none, mulSign p.maximize FVal.negInf) ∧
      (∀ init' fuel', hill_climb p init 0 fuel = hill_climb p init' 0 fuel') ∧
      (p.maximize = 1 → hill_climb p init 0 fuel = some (none, FVal.negInf)) ∧
      (p.maximize = -1 → hill_climb p init 0 fuel = some (none, FVal.posInf)) ∧
      random_hill_climb p init nbr maxAttempts 0 fuel = some (none, mulSign p.maximize FVal.negInf) ∧
      (∀ init' nbr' maxAttempts' fuel', random_hill_climb p init nbr maxAttempts 0 fuel =
        random_hill_climb p init' nbr' maxAttempts' 0 fuel') ∧
      (p.maximize = 1 →
        random_hill_climb p init nbr maxAttempts 0 fuel = some (none, FVal.negInf)) ∧
      (p.maximize = -1 →
        random_hill_climb p init nbr maxAttempts 0 fuel = some (none, FVal.posInf)) := by
  intro σ p init nbr maxAttempts fuel
  have h1 : hill_climb p init 0 fuel = some (none, mulSign p.maximize FVal.negInf) := rfl
  have h2 : random_hill_climb p init nbr maxAttempts 0 fuel =
      some (none, mulSign p.maximize FVal.negInf) := rfl
  refine ⟨h1, fun init' fuel' => rfl, ?_, ?_, h2, fun init' nbr' m' fuel' => rfl, ?_, ?_⟩
  · intro hmax; rw [h1, hmax, mulSign_one]
  · intro hmax; rw [h1, hmax, mulSign_negOne]; rfl
  · intro hmax; rw [h2, hmax, mulSign_one]
  · intro hmax; rw [h2, hmax, mulSign_negOne]; rfl

/-- Witness for C10: restarts = 0 on the two concrete problems. -/
theorem claim10_zero_restarts_witness :
    hill_climb pB initFalse 0 5 = some (none, FVal.negInf) ∧
    hill_climb pBmin initFalse 0 5 = some (none, FVal.posInf) ∧
    random_hill_climb pBmin initFalse nbrTrue 3 0 5 = some (none, FVal.posInf) := by
  refine ⟨?_, ?_, ?_⟩
  · exact (claim10_zero_restarts Bool pB initFalse nbrTrue 3 5).2.2.1 rfl
  · exact (claim10_zero_restarts Bool pBmin initFalse nbrTrue 3 5).2.2.2.1 rfl
  · exact (claim10_zero_restarts Bool pBmin initFalse nbrTrue 3 5).2.2.2.2.2.2.2 rfl

/-- C2.  When the schedule returns exactly 0 at time t0, simulated
annealing terminates at or before iteration t0 (fuel t0 + 1 always
suffices), the loop breaks before drawing a neighbor or computing delta_e
and the acceptance probability at the zero-temperature step (nothing is
recorded for it: the evals trace has exactly one entry per completed
iteration), and every (delta_e, temp) pair at which delta_e/temp is
computed has temp ≠ 0, so the division never sees a zero divisor. -/
theorem claim2_zero_temperature :
    ∀ (σ : Type) (p : Problem σ) (sched : ℕ → ℚ) (nbr : ℕ → σ → σ)
      (accTest : ℕ → ℚ → ℚ → Bool) (maxAttempts : ℕ) (s0 : σ) (t0 : ℕ),
      sched t0 = 0 →
      (∃ r, saLoop p sched nbr accTest maxAttempts (t0 + 1) 0 0 s0 [] [] [] = some r) ∧
      (∀ fuel r, saLoop p sched nbr accTest maxAttempts fuel 0 0 s0 [] [] [] = some r →
        r.t ≤ t0 ∧ r.evals.length = r.t ∧ ∀ pr ∈ r.evals, pr.2 ≠ 0) := by
  intro σ p sched nbr accTest maxAttempts s0 t0 hz
  constructor
  · exact saLoop_term_of_zero p sched nbr accTest maxAttempts t0 hz t0 0 0 s0 [] [] [] (by omega)
  · intro fuel r h
    refine ⟨saLoop_t_le p sched nbr accTest maxAttempts t0 hz fuel 0 0 s0 [] [] [] r h (Nat.zero_le _), ?_, ?_⟩
    · have := saLoop_evals_len p sched nbr accTest maxAttempts fuel 0 0 s0 [] [] [] r h
      simpa using this
    · intro pr hpr
      exact (saLoop_evals_temp p sched nbr accTest maxAttempts fuel 0 0 s0 [] [] [] r h
        (by simp) pr hpr).1

/-- Witness for C2: the schedule that is 1 at time 0 and 0 from time 1 on,
over the two-state problem. -/
theorem claim2_zero_temperature_witness :
    (∃ r, saLoop pB schedZ1 nbrTrue accFalse 5 (1 + 1) 0 0 false [] [] [] = some r) ∧
    (∀ fuel r, saLoop pB schedZ1 nbrTrue accFalse 5 fuel 0 0 false [] [] [] = some r →
      r.t ≤ 1 ∧ r.evals.length = r.t ∧ ∀ pr ∈ r.evals, pr.2 ≠ 0) :=
  claim2_zero_temperature Bool pB schedZ1 nbrTrue accFalse 5 false 1 rfl

/-- Counterexample to C5 as stated: the Boltzmann expression of line 140 is
computed before the acceptance branch, hence also on iterations whose
delta_e is positive.  In this concrete run the first iteration improves
(delta_e = 1 > 0) and still records an evaluation of exp(delta_e/temp)
with positive exponent argument. -/
theorem claim5_counterexample :
    ∃ r, saLoop pB schedOne nbrTrue accFalse 1 5 0 0 false [] [] [] = some r ∧
      ∃ pr ∈ r.evals, 0 < pr.1 := by
  refine ⟨⟨true, 2, [(1, 1), (0, 1)], [(0, 1)], [0, 1]⟩,
    by simp [saLoop, pB, schedOne, nbrTrue, accFalse], (1, 1), ?_, by norm_num⟩
  simp

/-- C5 amended.  The value of the Boltzmann expression is consulted (the
right operand of the or on line 145 is reached) only when delta_e ≤ 0;
with a non-negative schedule every consulted pair has temperature > 0,
exponent argument delta_e/temp ≤ 0, and probability exp(delta_e/temp) in
(0, 1]. -/
theorem claim5_boltzmann :
    ∀ (σ : Type) (p : Problem σ) (sched : ℕ → ℚ) (nbr : ℕ → σ → σ)
      (accTest : ℕ → ℚ → ℚ → Bool) (maxAttempts : ℕ) (s0 : σ) (fuel : ℕ) (r : SARun σ),
      (∀ t, 0 ≤ sched t) →
      saLoop p sched nbr accTest maxAttempts fuel 0 0 s0 [] [] [] = some r →
      ∀ pr ∈ r.uses, pr.1 ≤ 0 ∧ 0 < pr.2 ∧ ((pr.1 / pr.2 : ℚ) : ℝ) ≤ 0 ∧
        0 < Real.exp ((pr.1 / pr.2 : ℚ) : ℝ) ∧ Real.exp ((pr.1 / pr.2 : ℚ) : ℝ) ≤ 1 := by
  intro σ p sched nbr accTest maxAttempts s0 fuel r hsched h pr hpr
  obtain ⟨h1, hne, t', ht'⟩ :=
    saLoop_uses p sched nbr accTest maxAttempts fuel 0 0 s0 [] [] [] r h (by simp) pr hpr
  have hpos : 0 < pr.2 := lt_of_le_of_ne (ht' ▸ hsched t') (Ne.symm hne)
  have hdiv : (pr.1 / pr.2 : ℚ) ≤ 0 := div_nonpos_iff.mpr (Or.inr ⟨h1, le_of_lt hpos⟩)
  have hdivR : ((pr.1 / pr.2 : ℚ) : ℝ) ≤ 0 := by exact_mod_cast hdiv
  exact ⟨h1, hpos, hdivR, Real.exp_pos _, Real.exp_le_one_iff.mpr hdivR⟩

/-- Witness for C5 amended: the single consulted pair of the concrete run
is (0, 1), with exponent argument 0 and probability exp 0 = 1. -/
theorem claim5_boltzmann_witness :
    (((0 : ℚ), (1 : ℚ)) : ℚ × ℚ).1 ≤ 0 ∧ 0 < (((0 : ℚ), (1 : ℚ)) : ℚ × ℚ).2 ∧
      (((((0 : ℚ), (1 : ℚ)) : ℚ × ℚ).1 / (((0 : ℚ), (1 : ℚ)) : ℚ × ℚ).2 : ℚ) : ℝ) ≤ 0 ∧
      0 < Real.exp (((((0 : ℚ), (1 : ℚ)) : ℚ × ℚ).1 / (((0 : ℚ), (1 : ℚ)) : ℚ × ℚ).2 : ℚ) : ℝ) ∧
      Real.exp (((((0 : ℚ), (1 : ℚ)) : ℚ × ℚ).1 / (((0 : ℚ), (1 : ℚ)) : ℚ × ℚ).2 : ℚ) : ℝ) ≤ 1 :=
  claim5_boltzmann Bool pB schedOne nbrTrue accFalse 1 false 5
    ⟨true, 2, [(1, 1), (0, 1)], [(0, 1)], [0, 1]⟩ (fun t => by norm_num [schedOne])
    (by simp [saLoop, pB, schedOne, nbrTrue, accFalse]) ((0 : ℚ), (1 : ℚ)) (by simp)

/-- C6.  The hill_climb inner loop (which moves to the best neighbor only
on strict improvement, by its very translation) terminates exactly at the
first local optimum: (i) whatever state it returns, no neighbor of that
state has strictly greater fitness, and (ii) from a state with no strictly
improving neighbor it stops immediately, returning that state and
committing nothing, for every positive fuel.  There is no attempt budget:
the loop has no other exit. -/
theorem claim6_local_optimum :
    (∀ (σ : Type) (p : Problem σ) (fuel : ℕ) (s : σ) (tr : List σ) (r : HCRun σ),
        hillClimbInner p fuel s tr = some r →
        ∀ x ∈ p.neighbors r.final, ¬ p.fitness r.final < p.fitness x) ∧
    (∀ (σ : Type) (p : Problem σ) (s : σ),
        (∀ x ∈ p.neighbors s, ¬ p.fitness s < p.fitness x) →
        ∀ fuel tr, hillClimbInner p (fuel + 1) s tr = some ⟨s, tr⟩) := by
  constructor
  · intro σ p fuel s tr r h
    exact hillClimbInner_localopt p fuel s tr r h
  · intro σ p s h fuel tr
    exact hillClimbInner_stop_of_localopt p s h fuel tr

/-- Witness for C6: the concrete two-state run ends at the local optimum
true, and restarting the loop from true stops at once. -/
theorem claim6_local_optimum_witness :
    (∀ x ∈ pB.neighbors (⟨true, [true]⟩ : HCRun Bool).final,
      ¬ pB.fitness (⟨true, [true]⟩ : HCRun Bool).final < pB.fitness x) ∧
    hillClimbInner pB (2 + 1) true [] = some ⟨true, []⟩ := by
  constructor
  · exact claim6_local_optimum.1 Bool pB 3 false [] ⟨true, [true]⟩ (by decide)
  · exact claim6_local_optimum.2 Bool pB true (by decide) 2 []

/-- C8.  Within a single restart of hill_climb and of random_hill_climb the
committed fitness values are non-decreasing in the internal orientation
(each set_state happens only on a strictly improving candidate): the list
of states committed by the run, headed by the restart's initial state, is a
chain under fitness-less-or-equal. -/
theorem claim8_monotone_commits :
    (∀ (σ : Type) (p : Problem σ) (fuel : ℕ) (s : σ) (r : HCRun σ),
        hillClimbInner p fuel s [] = some r →
        List.Chain' (fun a b => p.fitness a ≤ p.fitness b) (s :: r.commits)) ∧
    (∀ (σ : Type) (p : Problem σ) (nbr : ℕ → σ → σ) (maxAttempts fuel n attempts : ℕ)
        (s : σ) (r : RHCRun σ),
        rhcInner p nbr maxAttempts fuel n attempts s [] [] = some r →
        List.Chain' (fun a b => p.fitness a ≤ p.fitness b) (s :: r.commits)) := by
  constructor
  · intro σ p fuel s r h
    obtain ⟨ext, hcom, hchain, _⟩ := hillClimbInner_commits p fuel s [] r h
    simpa [hcom] using hchain
  · intro σ p nbr maxAttempts fuel n attempts s r h
    obtain ⟨ext, hcom, hchain, _⟩ := rhcInner_commits p nbr maxAttempts fuel n attempts s [] [] r h
    simpa [hcom] using hchain

/-- Witness for C8: monotone committed fitness on concrete runs of both
climbers. -/
theorem claim8_monotone_commits_witness :
    List.Chain' (fun a b => pB.fitness a ≤ pB.fitness b)
      (false :: (⟨true, [true]⟩ : HCRun Bool).commits) ∧
    List.Chain' (fun a b => pB.fitness a ≤ pB.fitness b)
      (false :: (⟨3, true, [true], [0, 1, 2]⟩ : RHCRun Bool).commits) := by
  constructor
  · exact claim8_monotone_commits.1 Bool pB 3 false ⟨true, [true]⟩ (by decide)
  · exact claim8_monotone_commits.2 Bool pB nbrTrue 2 10 0 0 false
      ⟨3, true, [true], [0, 1, 2]⟩ (by decide)

/-- C7.  For restarts ≥ 1, hill_climb and random_hill_climb track the best
(state, fitness) pair over all restarts in the internal orientation: the
run list has one entry per restart, each entry is a genuine inner-loop run
from a reset state, the tracked best fitness is an upper bound on the
fitness of every restart's final committed state, and it is attained by
some restart whose final state is the returned state. -/
theorem claim7_best_over_restarts :
    (∀ (σ : Type) (p : Problem σ) (init : ℕ → σ) (restarts fuel : ℕ) (bs : Option σ)
        (bf : FVal) (runs : List (HCRun σ)),
        hillClimbMain p init fuel 0 restarts none FVal.negInf [] = some (bs, bf, runs) →
        1 ≤ restarts →
        runs.length = restarts ∧
        (∀ run ∈ runs, ∃ j, hillClimbInner p fuel (init j) [] = some run) ∧
        (∀ run ∈ runs, FVal.le (FVal.fin (p.fitness run.final)) bf = true) ∧
        ∃ run ∈ runs, bs = some run.final ∧ bf = FVal.fin (p.fitness run.final)) ∧
    (∀ (σ : Type) (p : Problem σ) (init : ℕ → σ) (nbr : ℕ → σ → σ)
        (maxAttempts restarts fuel : ℕ) (bs : Option σ) (bf : FVal) (runs : List (RHCRun σ)),
        rhcMain p init nbr maxAttempts fuel 0 restarts 0 none FVal.negInf [] = some (bs, bf, runs) →
        1 ≤ restarts →
        runs.length = restarts ∧
        (∀ run ∈ runs, ∃ j n', rhcInner p nbr maxAttempts fuel n' 0 (init j) [] [] = some run) ∧
        (∀ run ∈ runs, FVal.le (FVal.fin (p.fitness run.final)) bf = true) ∧
        ∃ run ∈ runs, bs = some run.final ∧ bf = FVal.fin (p.fitness run.final)) := by
  constructor
  · intro σ p init restarts fuel bs bf runs h hres
    obtain ⟨hpre, hlen, hle, hall, hatt⟩ :=
      hillClimbMain_spec p init fuel restarts 0 none FVal.negInf [] (bs, bf, runs) h
    have hlen' : runs.length = restarts := by simpa using hlen
    have hfrom := hillClimbMain_runs_from_inner p init fuel restarts 0 none FVal.negInf []
      (bs, bf, runs) h
    refine ⟨hlen', ?_, ?_, ?_⟩
    · intro run hr
      rcases hfrom run hr with hin | hgood
      · simp at hin
      · exact hgood
    · intro run hr
      rcases hall run hr with hin | hgood
      · simp at hin
      · exact hgood
    · rcases hatt with ⟨hbs, hbf⟩ | ⟨run, hm, h1, h2⟩
      · exfalso
        have hne : runs ≠ [] := by
          intro h0
          rw [h0] at hlen'
          simp at hlen'
          omega
        obtain ⟨run, hrun⟩ := List.exists_mem_of_ne_nil runs hne
        rcases hall run hrun with hin | hgood
        · simp at hin
        · rw [hbf] at hgood
          exact fval_fin_le_negInf hgood
      · exact ⟨run, hm, h1, h2⟩
  · intro σ p init nbr maxAttempts restarts fuel bs bf runs h hres
    obtain ⟨hpre, hlen, hle, hall, hatt⟩ :=
      rhcMain_spec p init nbr maxAttempts fuel restarts 0 0 none FVal.negInf [] (bs, bf, runs) h
    have hlen' : runs.length = restarts := by simpa using hlen
    have hfrom := rhcMain_runs_from_inner p init nbr maxAttempts fuel restarts 0 0 none
      FVal.negInf [] (bs, bf, runs) h
    refine ⟨hlen', ?_, ?_, ?_⟩
    · intro run hr
      rcases hfrom run hr with hin | hgood
      · simp at hin
      · exact hgood
    · intro run hr
      rcases hall run hr with hin | hgood
      · simp at hin
      · exact hgood
    · rcases hatt with ⟨hbs, hbf⟩ | ⟨run, hm, h1, h2⟩
      · exfalso
        have hne : runs ≠ [] := by
          intro h0
          rw [h0] at hlen'
          simp at hlen'
          omega
        obtain ⟨run, hrun⟩ := List.exists_mem_of_ne_nil runs hne
        rcases hall run hrun with hin | hgood
        · simp at hin
        · rw [hbf] at hgood
          exact fval_fin_le_negInf hgood
      · exact ⟨run, hm, h1, h2⟩

/-- Witness for C7: two restarts of hill_climb and one of
random_hill_climb on the two-state problem. -/
theorem claim7_best_over_restarts_witness :
    (([⟨true, [true]⟩, ⟨true, [true]⟩] : List (HCRun Bool)).length = 2 ∧
      (∀ run ∈ ([⟨true, [true]⟩, ⟨true, [true]⟩] : List (HCRun Bool)),
        ∃ j, hillClimbInner pB 3 (initFalse j) [] = some run) ∧
      (∀ run ∈ ([⟨true, [true]⟩, ⟨true, [true]⟩] : List (HCRun Bool)),
        FVal.le (FVal.fin (pB.fitness run.final)) (FVal.fin 1) = true) ∧
      ∃ run ∈ ([⟨true, [true]⟩, ⟨true, [true]⟩] : List (HCRun Bool)),
        (some true : Option Bool) = some run.final ∧
          FVal.fin 1 = FVal.fin (pB.fitness run.final)) ∧
    (([⟨3, true, [true], [0, 1, 2]⟩] : List (RHCRun Bool)).length = 1 ∧
      (∀ run ∈ ([⟨3, true, [true], [0, 1, 2]⟩] : List (RHCRun Bool)),
        ∃ j n', rhcInner pB nbrTrue 2 5 n' 0 (initFalse j) [] [] = some run) ∧
      (∀ run ∈ ([⟨3, true, [true], [0, 1, 2]⟩] : List (RHCRun Bool)),
        FVal.le (FVal.fin (pB.fitness run.final)) (FVal.fin 1) = true) ∧
      ∃ run ∈ ([⟨3, true, [true], [0, 1, 2]⟩] : List (RHCRun Bool)),
        (some true : Option Bool) = some run.final ∧
          FVal.fin 1 = FVal.fin (pB.fitness run.final)) :=
  ⟨claim7_best_over_restarts.1 Bool pB initFalse 2 3 (some true) (FVal.fin 1)
      [⟨true, [true]⟩, ⟨true, [true]⟩] (by decide) (by norm_num),
    claim7_best_over_restarts.2 Bool pB initFalse nbrTrue 2 1 5 (some true) (FVal.fin 1)
      [⟨3, true, [true], [0, 1, 2]⟩] (by decide) (by norm_num)⟩

/-- C9.  After every generation the population stored in the Problem has
length exactly pop_size: genetic_alg builds exactly pop_size children
before set_population, and mimic replaces the population with
sample_pop(pop_size), whose length is pop_size by the sampling contract. -/
theorem claim9_population_size :
    (∀ (σ : Type) (p : Problem σ) (reproduce : ℕ → σ → σ → ℚ → σ) (sel : ℕ → ℕ × ℕ)
        (mutationProb : ℚ) (popSize maxAttempts fuel : ℕ) (s0 : σ) (pop0 : List σ)
        (r : PopRun σ),
        gaLoop p reproduce sel mutationProb popSize maxAttempts fuel 0 0 s0 pop0 [] [] = some r →
        ∀ x ∈ r.popLens, x = popSize) ∧
    (∀ (σ : Type) (p : Problem σ) (sample : ℕ → ℕ → List σ) (popSize maxAttempts fuel : ℕ)
        (s0 : σ) (pop0 : List σ) (r : PopRun σ),
        (∀ g, (sample g popSize).length = popSize) →
        mimicLoop p sample popSize maxAttempts fuel 0 0 s0 pop0 [] [] = some r →
        ∀ x ∈ r.popLens, x = popSize) := by
  constructor
  · intro σ p reproduce sel mutationProb popSize maxAttempts fuel s0 pop0 r h
    exact gaLoop_popLens p reproduce sel mutationProb popSize maxAttempts fuel 0 0 s0 pop0 [] []
      r h (by simp)
  · intro σ p sample popSize maxAttempts fuel s0 pop0 r hsam h
    exact mimicLoop_popLens p sample popSize maxAttempts hsam fuel 0 0 s0 pop0 [] [] r h (by simp)

/-- Witness for C9: the concrete genetic_alg and mimic runs keep population
length 2 after every generation. -/
theorem claim9_population_size_witness :
    (∀ x ∈ (⟨false, [2, 2], [1, 2]⟩ : PopRun Bool).popLens, x = 2) ∧
    (∀ x ∈ (⟨true, [2, 2, 2], [0, 1, 2]⟩ : PopRun Bool).popLens, x = 2) :=
  ⟨claim9_population_size.1 Bool pB reprFst sel01 (1/10) 2 2 10 false [false, true]
      ⟨false, [2, 2], [1, 2]⟩ (by decide),
    claim9_population_size.2 Bool pB sampleTrue 2 2 10 false [false, true]
      ⟨true, [2, 2, 2], [0, 1, 2]⟩ (fun g => by simp [sampleTrue]) (by decide)⟩

/-- C3.  In random_hill_climb, simulated_annealing, genetic_alg and mimic
the attempts counter resets to 0 on every accepted move and increments on
every rejection (definitional in the translation), so the value recorded
after each iteration — the length of the current streak of consecutive
non-improving iterations — never exceeds max_attempts = k: at most k
consecutive non-improving iterations happen before the loop stops.  The
internally tracked best fitness is ≥ the fitness of the final committed
state (both in internal orientation): for random_hill_climb the tracked
best bounds every restart's final state, and for the three single-run
drivers the reported internal best is exactly the final committed state's
fitness. -/
theorem claim3_attempt_bound :
    (∀ (σ : Type) (p : Problem σ) (init : ℕ → σ) (nbr : ℕ → σ → σ)
        (maxAttempts restarts fuel : ℕ) (bs : Option σ) (bf : FVal) (runs : List (RHCRun σ)),
        rhcMain p init nbr maxAttempts fuel 0 restarts 0 none FVal.negInf [] = some (bs, bf, runs) →
        ∀ run ∈ runs, (∀ a ∈ run.attTrace, a ≤ maxAttempts) ∧
          FVal.le (FVal.fin (p.fitness run.final)) bf = true) ∧
    (∀ (σ : Type) (p : Problem σ) (s0 : σ) (sched : ℕ → ℚ) (nbr : ℕ → σ → σ)
        (accTest : ℕ → ℚ → ℚ → Bool) (maxAttempts fuel : ℕ) (r : SARun σ),
        saLoop p sched nbr accTest maxAttempts fuel 0 0 s0 [] [] [] = some r →
        (∀ a ∈ r.attTrace, a ≤ maxAttempts) ∧
        simulated_annealing p s0 sched nbr accTest maxAttempts fuel =
          some (r.final, (p.maximize : ℚ) * p.fitness r.final)) ∧
    (∀ (σ : Type) (p : Problem σ) (s0 : σ) (pop0 : List σ) (reproduce : ℕ → σ → σ → ℚ → σ)
        (sel : ℕ → ℕ × ℕ) (mutationProb : ℚ) (popSize maxAttempts fuel : ℕ) (r : PopRun σ),
        gaLoop p reproduce sel mutationProb popSize maxAttempts fuel 0 0 s0 pop0 [] [] = some r →
        (∀ a ∈ r.attTrace, a ≤ maxAttempts) ∧
        genetic_alg p s0 pop0 reproduce sel mutationProb popSize maxAttempts fuel =
          some (r.final, (p.maximize : ℚ) * p.fitness r.final)) ∧
    (∀ (σ : Type) (p : Problem σ) (s0 : σ) (pop0 : List σ) (sample : ℕ → ℕ → List σ)
        (popSize maxAttempts fuel : ℕ) (r : PopRun σ),
        mimicLoop p sample popSize maxAttempts fuel 0 0 s0 pop0 [] [] = some r →
        (∀ a ∈ r.attTrace, a ≤ maxAttempts) ∧
        mimic p s0 pop0 sample popSize maxAttempts fuel =
          some (r.final, (p.maximize : ℚ) * p.fitness r.final)) := by
  refine ⟨?_, ?_, ?_, ?_⟩
  · intro σ p init nbr maxAttempts restarts fuel bs bf runs h run hr
    constructor
    · rcases rhcMain_runs_from_inner p init nbr maxAttempts fuel restarts 0 0 none FVal.negInf []
        (bs, bf, runs) h run hr with hin | ⟨j, n', hinner⟩
      · simp at hin
      · exact rhcInner_attTrace p nbr maxAttempts fuel n' 0 (init j) [] [] run hinner (by simp)
    · rcases (rhcMain_spec p init nbr maxAttempts fuel restarts 0 0 none FVal.negInf []
        (bs, bf, runs) h).2.2.2.1 run hr with hin | hgood
      · simp at hin
      · exact hgood
  · intro σ p s0 sched nbr accTest maxAttempts fuel r h
    refine ⟨saLoop_attTrace p sched nbr accTest maxAttempts fuel 0 0 s0 [] [] [] r h (by simp), ?_⟩
    rw [simulated_annealing, h]
  · intro σ p s0 pop0 reproduce sel mutationProb popSize maxAttempts fuel r h
    refine ⟨gaLoop_attTrace p reproduce sel mutationProb popSize maxAttempts fuel 0 0 s0 pop0 [] []
      r h (by simp), ?_⟩
    rw [genetic_alg, h]
  · intro σ p s0 pop0 sample popSize maxAttempts fuel r h
    refine ⟨mimicLoop_attTrace p sample popSize maxAttempts fuel 0 0 s0 pop0 [] [] r h (by simp), ?_⟩
    rw [mimic, h]

/-- Witness for C3: the four loops on concrete runs with max_attempts 2, 1,
2 and 2 respectively. -/
theorem claim3_attempt_bound_witness :
    (∀ run ∈ ([⟨3, true, [true], [0, 1, 2]⟩] : List (RHCRun Bool)),
      (∀ a ∈ run.attTrace, a ≤ 2) ∧
        FVal.le (FVal.fin (pB.fitness run.final)) (FVal.fin 1) = true) ∧
    ((∀ a ∈ (⟨true, 2, [((1 : ℚ), (1 : ℚ)), (0, 1)], [(0, 1)], [0, 1]⟩ : SARun Bool).attTrace,
        a ≤ 1) ∧
      simulated_annealing pB false schedOne nbrTrue accFalse 1 5 = some (true, 1)) ∧
    ((∀ a ∈ (⟨false, [2, 2], [1, 2]⟩ : PopRun Bool).attTrace, a ≤ 2) ∧
      genetic_alg pB false [false, true] reprFst sel01 (1/10) 2 2 10 = some (false, 0)) ∧
    ((∀ a ∈ (⟨true, [2, 2, 2], [0, 1, 2]⟩ : PopRun Bool).attTrace, a ≤ 2) ∧
      mimic pB false [false, true] sampleTrue 2 2 10 = some (true, 1)) := by
  refine ⟨?_, ?_, ?_, ?_⟩
  · exact claim3_attempt_bound.1 Bool pB initFalse nbrTrue 2 1 5 (some true) (FVal.fin 1)
      [⟨3, true, [true], [0, 1, 2]⟩] (by decide)
  · have h := claim3_attempt_bound.2.1 Bool pB false schedOne nbrTrue accFalse 1 5
      ⟨true, 2, [(1, 1), (0, 1)], [(0, 1)], [0, 1]⟩
      (by simp [saLoop, pB, schedOne, nbrTrue, accFalse])
    refine ⟨h.1, ?_⟩
    rw [h.2]
    norm_num [pB]
  · have h := claim3_attempt_bound.2.2.1 Bool pB false [false, true] reprFst sel01 (1/10) 2 2 10
      ⟨false, [2, 2], [1, 2]⟩ (by decide)
    refine ⟨h.1, ?_⟩
    rw [h.2]
    norm_num [pB]
  · have h := claim3_attempt_bound.2.2.2 Bool pB false [false, true] sampleTrue 2 2 10
      ⟨true, [2, 2, 2], [0, 1, 2]⟩ (by decide)
    refine ⟨h.1, ?_⟩
    rw [h.2]
    norm_num [pB]

theorem pNat_hill_climb_none : ∀ fuel, hill_climb pNat (fun _ => 0) 1 fuel = none := by
  intro fuel
  rw [hill_climb, hillClimbMain, pNat_inner_none]

/-- Counterexample to C4 as stated: on the Problem over ℕ whose best
neighbor always strictly improves (fitness n = n, neighbors n = [n + 1]),
hill_climb with restarts = 1 never terminates — no amount of fuel makes
the run return: the inner loop has no attempt budget and its only exit is
a local optimum, which this Problem never reaches. -/
theorem claim4_counterexample :
    ¬ ∃ fuel r, hill_climb pNat (fun _ => 0) 1 fuel = some r := by
  rintro ⟨fuel, r, h⟩
  rw [pNat_hill_climb_none fuel] at h
  exact Option.noConfusion h

/-- C4 amended.  The restart loops are bounded by the restarts counter, but
the attempt counters alone do not bound the inner loops: termination needs
the Problem (or Schedule) to stop the improvement.  Over a finite state
space, where fitness cannot strictly improve forever, hill_climb,
random_hill_climb, genetic_alg (with in-range parent selection, a nonzero
population size and an initial population of that size) and mimic (with
nonempty samples) all terminate for every finite max_attempts and
restarts; simulated_annealing terminates whenever its schedule reaches
zero at some finite time (and may stop earlier through max_attempts). -/
theorem claim4_termination :
    (∀ (σ : Type) [Fintype σ] (p : Problem σ) (init : ℕ → σ) (restarts : ℕ),
        ∃ fuel out, hill_climb p init restarts fuel = some out) ∧
    (∀ (σ : Type) [Fintype σ] (p : Problem σ) (init : ℕ → σ) (nbr : ℕ → σ → σ)
        (maxAttempts restarts : ℕ),
        ∃ fuel out, random_hill_climb p init nbr maxAttempts restarts fuel = some out) ∧
    (∀ (σ : Type) (p : Problem σ) (s0 : σ) (sched : ℕ → ℚ) (nbr : ℕ → σ → σ)
        (accTest : ℕ → ℚ → ℚ → Bool) (maxAttempts t0 : ℕ), sched t0 = 0 →
        ∃ fuel out, simulated_annealing p s0 sched nbr accTest maxAttempts fuel = some out) ∧
    (∀ (σ : Type) [Fintype σ] (p : Problem σ) (s0 : σ) (pop0 : List σ)
        (reproduce : ℕ → σ → σ → ℚ → σ) (sel : ℕ → ℕ × ℕ) (mutationProb : ℚ)
        (popSize maxAttempts : ℕ),
        (∀ j, (sel j).1 < popSize ∧ (sel j).2 < popSize) → popSize ≠ 0 →
        pop0.length = popSize →
        ∃ fuel out, genetic_alg p s0 pop0 reproduce sel mutationProb popSize maxAttempts fuel =
          some out) ∧
    (∀ (σ : Type) [Fintype σ] (p : Problem σ) (s0 : σ) (pop0 : List σ)
        (sample : ℕ → ℕ → List σ) (popSize maxAttempts : ℕ),
        (∀ g, sample g popSize ≠ []) →
        ∃ fuel out, mimic p s0 pop0 sample popSize maxAttempts fuel = some out) := by
  refine ⟨?_, ?_, ?_, ?_, ?_⟩
  · intro σ _ p init restarts
    have hfuel : ∀ s tr, ∃ r, hillClimbInner p (Fintype.card σ + 1) s tr = some r := by
      intro s tr
      exact hillClimbInner_term p (Fintype.card σ + 1) s tr
        (Nat.lt_succ_of_le (improveCard_le_card p s))
    obtain ⟨out3, hmain⟩ := hillClimbMain_term p init (Fintype.card σ + 1) hfuel restarts 0
      none FVal.negInf []
    obtain ⟨bs, bf, runs⟩ := out3
    exact ⟨Fintype.card σ + 1, (bs, mulSign p.maximize bf), by rw [hill_climb, hmain]⟩
  · intro σ _ p init nbr maxAttempts restarts
    have hfuel : ∀ n s, ∃ r, rhcInner p nbr maxAttempts
        (Fintype.card σ * (maxAttempts + 1) + maxAttempts + 1) n 0 s [] [] = some r := by
      intro n s
      refine rhcInner_term p nbr maxAttempts _ n 0 s [] [] ?_
      have h1 := Nat.mul_le_mul_right (maxAttempts + 1) (improveCard_le_card p s)
      omega
    obtain ⟨out3, hmain⟩ := rhcMain_term p init nbr maxAttempts
      (Fintype.card σ * (maxAttempts + 1) + maxAttempts + 1) hfuel restarts 0 0
      none FVal.negInf []
    obtain ⟨bs, bf, runs⟩ := out3
    exact ⟨Fintype.card σ * (maxAttempts + 1) + maxAttempts + 1,
      (bs, mulSign p.maximize bf), by rw [random_hill_climb, hmain]⟩
  · intro σ p s0 sched nbr accTest maxAttempts t0 hz
    obtain ⟨r, h⟩ := saLoop_term_of_zero p sched nbr accTest maxAttempts t0 hz t0 0 0 s0 [] [] []
      (by omega)
    exact ⟨t0 + 1, (r.final, (p.maximize : ℚ) * p.fitness r.final),
      by rw [simulated_annealing, h]⟩
  · intro σ _ p s0 pop0 reproduce sel mutationProb popSize maxAttempts hsel hpos hlen
    obtain ⟨r, h⟩ := gaLoop_term p reproduce sel mutationProb popSize maxAttempts hsel hpos
      (Fintype.card σ * (maxAttempts + 1) + maxAttempts + 1) 0 0 s0 pop0 [] [] hlen
      (by
        have h1 := Nat.mul_le_mul_right (maxAttempts + 1) (improveCard_le_card p s0)
        omega)
    exact ⟨Fintype.card σ * (maxAttempts + 1) + maxAttempts + 1,
      (r.final, (p.maximize : ℚ) * p.fitness r.final), by rw [genetic_alg, h]⟩
  · intro σ _ p s0 pop0 sample popSize maxAttempts hsam
    obtain ⟨r, h⟩ := mimicLoop_term p sample popSize maxAttempts hsam
      (Fintype.card σ * (maxAttempts + 1) + maxAttempts + 1) 0 0 s0 pop0 [] []
      (by
        have h1 := Nat.mul_le_mul_right (maxAttempts + 1) (improveCard_le_card p s0)
        omega)
    exact ⟨Fintype.card σ * (maxAttempts + 1) + maxAttempts + 1,
      (r.final, (p.maximize : ℚ) * p.fitness r.final), by rw [mimic, h]⟩

/-- Witness for C4 amended: the five drivers terminate on the concrete
two-state instances. -/
theorem claim4_termination_witness :
    (∃ fuel out, hill_climb pB initFalse 2 fuel = some out) ∧
    (∃ fuel out, random_hill_climb pB initFalse nbrTrue 2 2 fuel = some out) ∧
    (∃ fuel out, simulated_annealing pB false schedZ1 nbrTrue accFalse 5 fuel = some out) ∧
    (∃ fuel out, genetic_alg pB false [false, true] reprFst sel01 (1/10) 2 2 fuel = some out) ∧
    (∃ fuel out, mimic pB false [false, true] sampleTrue 2 2 fuel = some out) :=
  ⟨claim4_termination.1 Bool pB initFalse 2,
    claim4_termination.2.1 Bool pB initFalse nbrTrue 2 2,
    claim4_termination.2.2.1 Bool pB false schedZ1 nbrTrue accFalse 5 1 rfl,
    claim4_termination.2.2.2.1 Bool pB false [false, true] reprFst sel01 (1/10) 2 2
      (fun j => by simp [sel01]) (by decide) (by decide),
    claim4_termination.2.2.2.2 Bool pB false [false, true] sampleTrue 2 2
      (fun g => by simp [sampleTrue])⟩

end Mlrose
